import Mathlib

/-!
Verification development for the Go-Extract-Article-Content scraper.

Shallow embedding of the scraping pipeline of this repository:
* the orchestrator (`ScrapeSmart`, src/internal/scraper/scraper.go, first file
  version — the one the line references of the claims point into),
* the browser capture engine's snapshot selection (`getBestHTML`) and the
  content-stability loop (`waitForContentStabilityInline`,
  src/internal/scraper/browser.go),
* the image candidate engine (src/internal/scraper/images.go),
* the multi-strategy content selection (`selectBestResult`, extractor source).

Conventions of the embedding:
* Durations are modelled in integral milliseconds (`Nat` for clamped
  remaining-time values, `Int` where the Go code subtracts `time.Duration`s
  that may go negative).
* External effects (the HTTP fetch tier, the browser, context expiry, the
  Cloudflare classifier, the content extractor) are oracles recorded in an
  environment record; `scrapeSmart` is the pure decision logic of the
  orchestrator over those oracles, instrumented with a trace that records
  which tiers were invoked.
* `strings.TrimSpace` is modelled by trimming whitespace characters from both
  ends of the character list of a string.
* Go float comparisons on exact integer-derived quantities (the 5 % stability
  threshold) are modelled by the equivalent exact integer inequality.
-/

namespace Scraper

/-- Model of `strings.TrimSpace` applied to the character list: drop
whitespace from the front, then from the back. -/
def trimChars (l : List Char) : List Char :=
  ((l.dropWhile Char.isWhitespace).reverse.dropWhile Char.isWhitespace).reverse

/-- Length of `strings.TrimSpace(s)`; the scraper only ever consumes the
trimmed length, never the trimmed text itself. -/
def trimmedLen (s : String) : Nat :=
  (trimChars s.data).length

theorem trimChars_length_le (l : List Char) : (trimChars l).length ≤ l.length := by
  unfold trimChars
  have h1 : (l.dropWhile Char.isWhitespace).length ≤ l.length :=
    (List.dropWhile_suffix _).sublist.length_le
  have h2 : ((l.dropWhile Char.isWhitespace).reverse.dropWhile Char.isWhitespace).length ≤
      (l.dropWhile Char.isWhitespace).reverse.length :=
    (List.dropWhile_suffix _).sublist.length_le
  simp only [List.length_reverse] at h2 ⊢
  omega

theorem trimmedLen_le_length (s : String) : trimmedLen s ≤ s.length :=
  trimChars_length_le s.data

/-! ## Orchestrator (`ScrapeSmart`, scraper.go lines 54–178)

The environment collects, per request, everything `ScrapeSmart` observes from
outside: whether `url.Parse` succeeded, the remaining budget read via
`calculateRemainingTime` before phase 1 and before phase 2, the result of the
HTTP fetch tier, the result of the browser tier, the two `ctx.Err()` checks,
and the Cloudflare-block classification of the phase-2 error. -/

/-- Constant `HTTPTimeout` of constants.go (12 s), in milliseconds. -/
def HTTPTimeoutMs : Nat := 12000

/-- Constant `BrowserTimeout` of constants.go (60 s), in milliseconds. -/
def BrowserTimeoutMs : Nat := 60000

/-- Result of one fetch tier: `ok` is `err == nil`, together with the
returned html and final URL. -/
structure FetchOutcome where
  ok : Bool
  html : String
  finalURL : String
deriving DecidableEq, Repr

/-- The part of an extraction result (`models.ScrapeResponse`) the
orchestrator's success criterion inspects. -/
structure Extracted where
  title : String
  content : String
deriving DecidableEq, Repr

/-- Oracle environment for one `ScrapeSmart` request. -/
structure ScrapeEnv where
  parseOk : Bool
  remaining1 : Nat
  httpResult : FetchOutcome
  ctxExpired1 : Bool
  remaining2 : Nat
  browserResult : FetchOutcome
  ctxExpired2 : Bool
  cloudflare : Bool
deriving DecidableEq, Repr

/-- Outcome taxonomy of `ScrapeSmart`: a successful extraction tagged with
the tier that produced it, or one of the error returns of the source. -/
inductive ScrapeOutcome where
  | invalidURL
  | success (r : Extracted) (tier : Nat)
  | ctxExpiredHTTP
  | insufficientBrowserTime
  | ctxExpiredBrowser
  | cloudflareBlocked
  | scrapingFailed
deriving DecidableEq, Repr

/-- Instrumentation: which tiers were actually invoked during the request. -/
structure ScrapeTrace where
  httpInvoked : Bool
  browserInvoked : Bool
deriving DecidableEq, Repr

/-- Model of `adjustTimeoutForBudget` (scraper.go lines 45–51): the float
factor `maxPercent` is represented as the exact fraction `num / den`. -/
def adjustTimeoutForBudget (baseTimeout remainingTime num den : Nat) : Nat :=
  let maxAllowed := remainingTime * num / den
  if maxAllowed < baseTimeout then maxAllowed else baseTimeout

/-- The phase-1 HTTP timeout: `adjustTimeoutForBudget(HTTPTimeout,
remainingTime, 0.8)` (scraper.go line 71). -/
def httpTimeoutOf (env : ScrapeEnv) : Nat :=
  adjustTimeoutForBudget HTTPTimeoutMs env.remaining1 8 10

/-- Phase 1 of `ScrapeSmart` (scraper.go lines 72–113): `some out` when the
function returns inside the phase-1 block, `none` when control falls through
to the browser phase.  Mirrors: the skip when the http timeout is below 1 s,
the empty/minimal-HTML check (`len(html) == 0 || len(TrimSpace(html)) < 100`),
the empty-extraction check, and the `ctx.Err()` check on the failure path. -/
def phase1Outcome (extract : String → String → Extracted) (env : ScrapeEnv) :
    Option ScrapeOutcome :=
  if httpTimeoutOf env < 1000 then none
  else if env.httpResult.ok then
    if env.httpResult.html.length = 0 ∨ trimmedLen env.httpResult.html < 100 then
      if env.ctxExpired1 then some .ctxExpiredHTTP else none
    else
      let r := extract env.httpResult.html env.httpResult.finalURL
      if r.content.length = 0 ∧ r.title.length = 0 then
        if env.ctxExpired1 then some .ctxExpiredHTTP else none
      else some (.success r 1)
  else if env.ctxExpired1 then some .ctxExpiredHTTP else none

/-- The error selection after a failed browser phase (scraper.go lines
156–177): parent-context expiry first, then the Cloudflare-block
classification, then the generic combined failure. -/
def phase2Failure (env : ScrapeEnv) : ScrapeOutcome :=
  if env.ctxExpired2 then .ctxExpiredBrowser
  else if env.cloudflare then .cloudflareBlocked
  else .scrapingFailed

/-- The browser phase once it has been entered (scraper.go lines 126–177):
run the browser, extract, accept when title or content is non-empty, and
otherwise fall into the failure selection. -/
def phase2Run (extract : String → String → Extracted) (env : ScrapeEnv) :
    ScrapeOutcome :=
  if env.browserResult.ok then
    let r := extract env.browserResult.html env.browserResult.finalURL
    if r.content.length = 0 ∧ r.title.length = 0 then phase2Failure env
    else .success r 2
  else phase2Failure env

/-- Model of `ScrapeSmart` (scraper.go lines 54–178, first file version):
URL validation, phase 1, the pre-browser budget re-check
(`maxBrowserTime := remaining - 5s; if maxBrowserTime < 1s` fail fast), and
phase 2.  The trace records which tiers were invoked. -/
def scrapeSmart (extract : String → String → Extracted) (env : ScrapeEnv) :
    ScrapeOutcome × ScrapeTrace :=
  if env.parseOk = false then (.invalidURL, ⟨false, false⟩)
  else
    let httpInvoked : Bool := decide (1000 ≤ httpTimeoutOf env)
    match phase1Outcome extract env with
    | some out => (out, ⟨httpInvoked, false⟩)
    | none =>
      if (env.remaining2 : Int) - 5000 < 1000 then
        (.insufficientBrowserTime, ⟨httpInvoked, false⟩)
      else (phase2Run extract env, ⟨httpInvoked, true⟩)

/-- C5. For every malformed URL string (one rejected by `url.Parse`),
`ScrapeSmart` returns the invalid-input error immediately and neither the
HTTP fetch tier nor the browser tier is invoked. -/
theorem scrapeSmart_rejects_invalid_url
    (extract : String → String → Extracted) (env : ScrapeEnv)
    (h : env.parseOk = false) :
    scrapeSmart extract env = (.invalidURL, ⟨false, false⟩) := by
  simp [scrapeSmart, h]

/-- Witness for C5: a concrete environment with a failed URL parse. -/
theorem scrapeSmart_rejects_invalid_url_witness :
    scrapeSmart (fun _ _ => ⟨"t", "c"⟩)
      ⟨false, 30000, ⟨true, "x", "u"⟩, false, 30000, ⟨true, "x", "u"⟩, false, false⟩ =
      (.invalidURL, ⟨false, false⟩) :=
  scrapeSmart_rejects_invalid_url _ _ rfl

/-- C2. Whenever phase 1 did not return (in particular whenever tier 1
failed) and the remaining budget before the browser phase is below the
viable threshold (`remaining - 5s < 1s`, i.e. under 6 s), `ScrapeSmart`
returns the insufficient-time error and the browser tier is never
invoked. -/
theorem scrapeSmart_insufficient_budget_fails_fast
    (extract : String → String → Extracted) (env : ScrapeEnv)
    (hp : env.parseOk = true)
    (h1 : phase1Outcome extract env = none)
    (h2 : env.remaining2 < 6000) :
    (scrapeSmart extract env).1 = .insufficientBrowserTime ∧
      (scrapeSmart extract env).2.browserInvoked = false := by
  have hb : (env.remaining2 : Int) - 5000 < 1000 := by
    omega
  simp [scrapeSmart, hp, h1, hb]

/-- Witness for C2: tier 1 fails with an http error, 3 s remain before the
browser phase; the orchestrator fails fast without a browser launch. -/
theorem scrapeSmart_insufficient_budget_fails_fast_witness :
    (scrapeSmart (fun _ _ => ⟨"t", "c"⟩)
        ⟨true, 30000, ⟨false, "", ""⟩, false, 3000, ⟨true, "x", "u"⟩, false, false⟩).1 =
      .insufficientBrowserTime ∧
    (scrapeSmart (fun _ _ => ⟨"t", "c"⟩)
        ⟨true, 30000, ⟨false, "", ""⟩, false, 3000, ⟨true, "x", "u"⟩, false, false⟩).2.browserInvoked =
      false :=
  scrapeSmart_insufficient_budget_fails_fast _ _ rfl (by decide) (by decide)

/-- C1. The tier-1 success criterion of `ScrapeSmart`, both directions.
With the URL valid, phase 1 attempted (its timeout at least 1 s) and the
HTTP fetch returning without error:
(a) when the returned HTML has trimmed length at least the 100-character
floor and extraction yields a non-empty title or content, `ScrapeSmart`
returns that extraction as a tier-1 success without invoking the browser;
(b) when the HTML is below the floor or extraction is empty (and the parent
context has not expired and at least 6 s remain), the tier-1 failure is not
surfaced: the browser tier is invoked and the outcome is exactly the
phase-2 outcome. -/
theorem scrapeSmart_tier1_criterion
    (extract : String → String → Extracted) (env : ScrapeEnv)
    (hp : env.parseOk = true)
    (ht : 1000 ≤ httpTimeoutOf env)
    (hok : env.httpResult.ok = true) :
    (100 ≤ trimmedLen env.httpResult.html →
      ¬((extract env.httpResult.html env.httpResult.finalURL).content.length = 0 ∧
        (extract env.httpResult.html env.httpResult.finalURL).title.length = 0) →
      scrapeSmart extract env =
        (.success (extract env.httpResult.html env.httpResult.finalURL) 1, ⟨true, false⟩)) ∧
    (env.ctxExpired1 = false → 6000 ≤ env.remaining2 →
      (trimmedLen env.httpResult.html < 100 ∨
        ((extract env.httpResult.html env.httpResult.finalURL).content.length = 0 ∧
         (extract env.httpResult.html env.httpResult.finalURL).title.length = 0)) →
      scrapeSmart extract env = (phase2Run extract env, ⟨true, true⟩)) := by
  have htn : ¬ httpTimeoutOf env < 1000 := by omega
  constructor
  · intro hfloor hnonempty
    have hlen : ¬(env.httpResult.html.length = 0 ∨ trimmedLen env.httpResult.html < 100) := by
      push_neg
      refine ⟨?_, by omega⟩
      intro hzero
      have hle := trimmedLen_le_length env.httpResult.html
      omega
    simp [scrapeSmart, phase1Outcome, hp, htn, hok, hlen, hnonempty, ht]
  · intro hctx hrem hviol
    have hb : ¬ ((env.remaining2 : Int) - 5000 < 1000) := by omega
    have h1 : phase1Outcome extract env = none := by
      rcases hviol with hshort | hempty
      · rcases Nat.eq_zero_or_pos env.httpResult.html.length with hz | hpos
        · simp [phase1Outcome, htn, hok, hz, hctx]
        · simp [phase1Outcome, htn, hok, hshort, hctx]
      · by_cases hlen : env.httpResult.html.length = 0 ∨ trimmedLen env.httpResult.html < 100
        · simp [phase1Outcome, htn, hok, hlen, hctx]
        · simp [phase1Outcome, htn, hok, hlen, hempty, hctx]
    simp [scrapeSmart, hp, h1, hb, ht]

set_option maxRecDepth 8000 in
/-- Witness for C1: conjunct (a) at an environment whose HTTP tier returns a
long page that extracts to a non-empty title, conjunct (b) at an environment
whose HTTP tier returns a 3-character page, so that the orchestrator falls
through to the browser tier. -/
theorem scrapeSmart_tier1_criterion_witness :
    scrapeSmart (fun _ _ => ⟨"t", "c"⟩)
        ⟨true, 30000, ⟨true, String.mk (List.replicate 200 'a'), "u"⟩, false, 30000,
          ⟨true, "y", "v"⟩, false, false⟩ =
      (.success ⟨"t", "c"⟩ 1, ⟨true, false⟩) ∧
    scrapeSmart (fun _ _ => ⟨"t", "c"⟩)
        ⟨true, 30000, ⟨true, "abc", "u"⟩, false, 30000, ⟨true, "y", "v"⟩, false, false⟩ =
      (phase2Run (fun _ _ => ⟨"t", "c"⟩)
        ⟨true, 30000, ⟨true, "abc", "u"⟩, false, 30000, ⟨true, "y", "v"⟩, false, false⟩,
        ⟨true, true⟩) := by
  constructor
  · exact (scrapeSmart_tier1_criterion _ _ rfl (by decide) rfl).1 (by decide) (by decide)
  · exact (scrapeSmart_tier1_criterion _ _ rfl (by decide) rfl).2 rfl (by decide)
      (Or.inl (by decide))

end Scraper

namespace Scraper

/-! ## Content-stability loop (`waitForContentStabilityInline`, browser.go
lines 1430–1519)

The loop is modelled as fuel-bounded recursion: `measure i` is the trimmed
text length captured at the i-th check (a value of `0` models a failed or
empty capture, which the source skips without updating its state), and the
fuel is the number of loop iterations the stability deadline permits —
exhausted fuel is the `stabilityCtx.Done()` / `ctx.Done()` exit, which tags
the last captured snapshot `stable-timeout` (resp. `stable-interrupted`).
The float comparison `|diff| / prev * 100 < 5.0` is modelled by the exact
integer inequality `100 * |diff| < 5 * prev`. -/

/-- Outcome of the stability loop: a snapshot tagged `stable` at check `idx`
with length `len`, or the timeout/interrupt exit carrying the last captured
length. -/
inductive StabilityOutcome where
  | stable (idx len : Nat)
  | timeout (last : Option Nat)
deriving DecidableEq, Repr

/-- One-loop-per-constructor model of the stability loop body: state is
(check index, previousLength, stableCount, last captured length). -/
def stabilityAux (measure : Nat → Nat) :
    Nat → Nat → Nat → Nat → Option Nat → StabilityOutcome
  | 0, _, _, _, last => .timeout last
  | fuel + 1, i, prev, count, last =>
    let cur := measure i
    if cur = 0 then stabilityAux measure fuel (i + 1) prev count last
    else if 0 < prev ∧ 100 * Int.natAbs ((cur : Int) - (prev : Int)) < 5 * prev then
      if 3 ≤ count + 1 then .stable i cur
      else stabilityAux measure fuel (i + 1) cur (count + 1) (some cur)
    else stabilityAux measure fuel (i + 1) cur 0 (some cur)

/-- The stability loop, started from the source's initial state
(`previousLength = 0`, `stableCount = 0`, no snapshot yet). -/
def waitForContentStabilityInline (measure : Nat → Nat) (maxChecks : Nat) :
    StabilityOutcome :=
  stabilityAux measure maxChecks 0 0 0 none

/-- Check `k+1` measures a length within the 5 % relative threshold of check
`k` (the source additionally requires the previous length to be positive). -/
def stableCond (measure : Nat → Nat) (k : Nat) : Prop :=
  100 * Int.natAbs ((measure (k + 1) : Int) - (measure k : Int)) < 5 * measure k

theorem stabilityAux_step (measure : Nat → Nat)
    (f i prev count : Nat) (last : Option Nat) (hc : measure i ≠ 0) :
    stabilityAux measure (f + 1) i prev count last =
      if 0 < prev ∧ 100 * Int.natAbs ((measure i : Int) - (prev : Int)) < 5 * prev then
        if 3 ≤ count + 1 then .stable i (measure i)
        else stabilityAux measure f (i + 1) (measure i) (count + 1) (some (measure i))
      else stabilityAux measure f (i + 1) (measure i) 0 (some (measure i)) := by
  simp [stabilityAux, hc]

theorem stability_window (measure : Nat → Nat) (j : Nat)
    (hpos : ∀ k, 0 < measure k)
    (hconv : ∀ t, t < 3 → stableCond measure (j + t)) :
    ∀ f count last, 3 ≤ f →
      ∃ i, i ≤ j + 3 ∧ ∃ n,
        stabilityAux measure f (j + 1) (measure j) count last = .stable i n := by
  intro f count last hf
  obtain ⟨f', rfl⟩ : ∃ f', f = f' + 3 := ⟨f - 3, by omega⟩
  have hcond1 : 0 < measure j ∧
      100 * Int.natAbs ((measure (j + 1) : Int) - (measure j : Int)) < 5 * measure j :=
    ⟨hpos j, by have := hconv 0 (by omega); simpa [stableCond] using this⟩
  rw [show f' + 3 = (f' + 2) + 1 from rfl,
    stabilityAux_step measure _ _ _ _ _ (Nat.pos_iff_ne_zero.mp (hpos (j + 1))),
    if_pos hcond1]
  by_cases h1 : 3 ≤ count + 1
  · rw [if_pos h1]
    exact ⟨j + 1, by omega, measure (j + 1), rfl⟩
  · rw [if_neg h1]
    have hcond2 : 0 < measure (j + 1) ∧
        100 * Int.natAbs ((measure (j + 1 + 1) : Int) - (measure (j + 1) : Int)) <
          5 * measure (j + 1) :=
      ⟨hpos (j + 1), by have := hconv 1 (by omega); simpa [stableCond] using this⟩
    rw [show f' + 2 = (f' + 1) + 1 from rfl,
      stabilityAux_step measure _ _ _ _ _ (Nat.pos_iff_ne_zero.mp (hpos (j + 1 + 1))),
      if_pos hcond2]
    by_cases h2 : 3 ≤ count + 1 + 1
    · rw [if_pos h2]
      exact ⟨j + 1 + 1, by omega, measure (j + 1 + 1), rfl⟩
    · rw [if_neg h2]
      have hcond3 : 0 < measure (j + 1 + 1) ∧
          100 * Int.natAbs ((measure (j + 1 + 1 + 1) : Int) - (measure (j + 1 + 1) : Int)) <
            5 * measure (j + 1 + 1) :=
        ⟨hpos (j + 1 + 1), by have := hconv 2 (by omega); simpa [stableCond] using this⟩
      rw [stabilityAux_step measure _ _ _ _ _ (Nat.pos_iff_ne_zero.mp (hpos (j + 1 + 1 + 1))),
        if_pos hcond3, if_pos (by omega)]
      exact ⟨j + 1 + 1 + 1, by omega, measure (j + 1 + 1 + 1), rfl⟩

theorem stability_approach (measure : Nat → Nat) (j : Nat)
    (hpos : ∀ k, 0 < measure k)
    (hconv : ∀ t, t < 3 → stableCond measure (j + t)) :
    ∀ fuel i count last, i ≤ j + 1 →
      j + 4 - i ≤ fuel →
      ∃ i', i' ≤ j + 3 ∧ ∃ n,
        stabilityAux measure fuel i (if i = 0 then 0 else measure (i - 1)) count last =
          .stable i' n := by
  intro fuel
  induction fuel with
  | zero => intro i count last hi hfuel; omega
  | succ f ih =>
    intro i count last hi hfuel
    by_cases hij : i = j + 1
    · subst hij
      have := stability_window measure j hpos hconv (f + 1) count last (by omega)
      simpa using this
    · have hij' : i ≤ j := by omega
      rw [stabilityAux_step measure _ _ _ _ _ (Nat.pos_iff_ne_zero.mp (hpos i))]
      split_ifs
      all_goals first
        | exact ⟨i, by omega, measure i, rfl⟩
        | (have hrec := ih (i + 1) (count + 1) (some (measure i)) (by omega) (by omega)
           simpa using hrec)
        | (have hrec := ih (i + 1) 0 (some (measure i)) (by omega) (by omega)
           simpa using hrec)

/-- C6. If every check succeeds with a positive measured length and the
measured trimmed-text length changes by less than 5 % at three consecutive
checks `j+1`, `j+2`, `j+3`, then — provided the outer timeout allows at
least `j+4` iterations — the stability loop returns a snapshot tagged
`stable` no later than check `j+3` (within 3 check intervals of
convergence), rather than running until its outer timeout; by the same
token a `stable-timeout`/`stable-interrupted` exit can only happen when no
such convergence window fits in the allotted checks. -/
theorem stability_loop_converges (measure : Nat → Nat) (j fuel : Nat)
    (hpos : ∀ k, 0 < measure k)
    (hconv : ∀ t, t < 3 → stableCond measure (j + t))
    (hfuel : j + 4 ≤ fuel) :
    ∃ i, i ≤ j + 3 ∧ ∃ n,
      waitForContentStabilityInline measure fuel = .stable i n := by
  have := stability_approach measure j hpos hconv fuel 0 0 none (by omega) (by omega)
  simpa [waitForContentStabilityInline] using this

/-- Witness for C6: a constantly-1000-character page converges at once
(`j = 0`); with 4 permitted checks the loop returns a `stable` snapshot by
check 3. -/
theorem stability_loop_converges_witness :
    ∃ i, i ≤ 0 + 3 ∧ ∃ n,
      waitForContentStabilityInline (fun _ => 1000) 4 = .stable i n := by
  apply stability_loop_converges (fun _ => 1000) 0 4
  · intro k
    show (0 : Nat) < 1000
    decide
  · intro t _
    show (100 : Nat) * Int.natAbs ((1000 : Int) - (1000 : Int)) < 5 * 1000
    decide
  · omega

/-! ## Snapshot selection (`getBestHTML`, browser.go lines 1590–1637)

`LooksLikeApplicationError` is a compiled-regex match over the snapshot
HTML; it is abstracted as a Boolean predicate parameter `appErr`. -/

/-- Snapshot record; the `Timestamp` field of the source is omitted because
`getBestHTML` never reads it.  `length` is the trimmed length stored at
capture time. -/
structure HTMLSnapshot where
  html : String
  url : String
  stage : String
  length : Nat
deriving DecidableEq, Repr

/-- The `stagePriority` table of `getBestHTML`; a stage absent from the Go
map yields the zero value 0. -/
def stagePriority (stage : String) : Int :=
  if stage = "stable" then 6
  else if stage = "stable-timeout" then 5
  else if stage = "stable-interrupted" then 4
  else if stage = "after-scroll" then 3
  else if stage = "after-consent" then 2
  else if stage = "periodic" then 1
  else if stage = "initial" then 0
  else if stage = "minimal" then 0
  else if stage = "minimal-fallback" then -1
  else if stage = "js-fetch-fallback" then -2
  else if stage = "fallback" then -1
  else if stage = "final" then -1
  else if stage = "final-fallback" then -2
  else if stage = "stability-check" then 0
  else 0

/-- Loop body of `getBestHTML`: the accumulator is `(best, bestPriority)`,
initially `(nil, -1)`. -/
def getBestStep (appErr : String → Bool) (acc : Option HTMLSnapshot × Int)
    (snap : HTMLSnapshot) : Option HTMLSnapshot × Int :=
  let priority := stagePriority snap.stage
  if appErr snap.html = true ∧ snap.length < 1000 then acc
  else if acc.2 < priority then (some snap, priority)
  else
    match acc.1 with
    | some best =>
      if priority = acc.2 ∧ best.length < snap.length then (some snap, acc.2) else acc
    | none => acc

/-- Model of `getBestHTML`. -/
def getBestHTML (appErr : String → Bool) (snapshots : List HTMLSnapshot) :
    Option HTMLSnapshot :=
  if snapshots.isEmpty then none
  else (snapshots.foldl (getBestStep appErr) (none, -1)).1

/-- A snapshot that the selection can actually return: non-negative stage
priority and not a short application-error page. -/
def eligibleSnap (appErr : String → Bool) (s : HTMLSnapshot) : Prop :=
  0 ≤ stagePriority s.stage ∧ ¬(appErr s.html = true ∧ s.length < 1000)

/-- Invariant carried by the selection fold over the snapshots seen so
far. -/
def bestInv (appErr : String → Bool) (seen : List HTMLSnapshot)
    (acc : Option HTMLSnapshot × Int) : Prop :=
  (acc.1 = none → acc.2 = -1 ∧ ∀ s ∈ seen, ¬ eligibleSnap appErr s) ∧
  (∀ b, acc.1 = some b → acc.2 = stagePriority b.stage ∧ eligibleSnap appErr b ∧
    b ∈ seen ∧
    ∀ s ∈ seen, eligibleSnap appErr s →
      stagePriority s.stage < stagePriority b.stage ∨
      (stagePriority s.stage = stagePriority b.stage ∧ s.length ≤ b.length))

theorem bestInv_step (appErr : String → Bool) (seen : List HTMLSnapshot)
    (acc : Option HTMLSnapshot × Int) (snap : HTMLSnapshot)
    (h : bestInv appErr seen acc) :
    bestInv appErr (seen ++ [snap]) (getBestStep appErr acc snap) := by
  obtain ⟨hnone, hsome⟩ := h
  unfold getBestStep
  by_cases hskip : appErr snap.html = true ∧ snap.length < 1000
  · rw [if_pos hskip]
    refine ⟨fun hn => ⟨(hnone hn).1, ?_⟩, fun b hb => ?_⟩
    · intro s hs
      rcases List.mem_append.mp hs with hs | hs
      · exact (hnone hn).2 s hs
      · simp only [List.mem_singleton] at hs
        subst hs
        exact fun he => he.2 hskip
    · obtain ⟨h1, h2, h3, h4⟩ := hsome b hb
      refine ⟨h1, h2, List.mem_append.mpr (Or.inl h3), fun s hs he => ?_⟩
      rcases List.mem_append.mp hs with hs | hs
      · exact h4 s hs he
      · simp only [List.mem_singleton] at hs
        subst hs
        exact absurd hskip he.2
  · rw [if_neg hskip]
    by_cases hlt : acc.2 < stagePriority snap.stage
    · rw [if_pos hlt]
      have haccge : -1 ≤ acc.2 := by
        cases hacc : acc.1 with
        | none => exact le_of_eq (hnone hacc).1.symm
        | some b =>
          have := (hsome b hacc).1
          have := (hsome b hacc).2.1.1
          omega
      refine ⟨fun hn => by simp at hn, fun b hb => ?_⟩
      simp only [Option.some.injEq] at hb
      subst hb
      refine ⟨rfl, ⟨by omega, hskip⟩, List.mem_append.mpr (Or.inr (by simp)), ?_⟩
      intro s hs he
      rcases List.mem_append.mp hs with hs | hs
      · cases hacc : acc.1 with
        | none => exact absurd he ((hnone hacc).2 s hs)
        | some b' =>
          obtain ⟨h1, _, _, h4⟩ := hsome b' hacc
          rcases h4 s hs he with h5 | h5
          · left; omega
          · left; omega
      · simp only [List.mem_singleton] at hs
        subst hs
        right; exact ⟨rfl, le_refl _⟩
    · rw [if_neg hlt]
      cases hacc : acc.1 with
      | none =>
        have hinv := hnone hacc
        have hsnapbad : ¬ eligibleSnap appErr snap := by
          intro he
          have := he.1
          omega
        refine ⟨fun _ => ⟨hinv.1, ?_⟩, fun b hb => ?_⟩
        · intro s hs
          rcases List.mem_append.mp hs with hs | hs
          · exact hinv.2 s hs
          · simp only [List.mem_singleton] at hs
            subst hs; exact hsnapbad
        · rw [hacc] at hb; simp at hb
      | some best =>
        obtain ⟨h1, h2, h3, h4⟩ := hsome best hacc
        have h2p : 0 ≤ stagePriority best.stage := h2.1
        dsimp only
        by_cases hrep : stagePriority snap.stage = acc.2 ∧ best.length < snap.length
        · rw [if_pos hrep]
          refine ⟨fun hn => by simp at hn, fun b hb => ?_⟩
          have hb' : snap = b := by simpa using hb
          rw [← hb']
          have hrep1 := hrep.1
          have hrep2 := hrep.2
          refine ⟨by omega, ⟨by omega, hskip⟩,
            List.mem_append.mpr (Or.inr (by simp)), ?_⟩
          intro s hs he
          rcases List.mem_append.mp hs with hs | hs
          · rcases h4 s hs he with h5 | h5
            · left; omega
            · have h51 := h5.1
              have h52 := h5.2
              right; exact ⟨by omega, by omega⟩
          · simp only [List.mem_singleton] at hs
            subst hs
            right; exact ⟨rfl, le_refl _⟩
        · rw [if_neg hrep]
          refine ⟨fun hn => by rw [hacc] at hn; simp at hn, fun b hb => ?_⟩
          rw [hacc] at hb
          have hb' : best = b := by simpa using hb
          rw [← hb']
          refine ⟨h1, h2, List.mem_append.mpr (Or.inl h3), ?_⟩
          intro s hs he
          rcases List.mem_append.mp hs with hs | hs
          · exact h4 s hs he
          · simp only [List.mem_singleton] at hs
            subst hs
            by_cases heq : stagePriority s.stage = acc.2
            · right
              refine ⟨by omega, ?_⟩
              have hnl : ¬ best.length < s.length := fun hl => hrep ⟨heq, hl⟩
              omega
            · left; omega

theorem bestInv_foldl (appErr : String → Bool) :
    ∀ (l seen : List HTMLSnapshot) (acc : Option HTMLSnapshot × Int),
      bestInv appErr seen acc →
      bestInv appErr (seen ++ l) (l.foldl (getBestStep appErr) acc) := by
  intro l
  induction l with
  | nil => intro seen acc h; simpa using h
  | cons a t ih =>
    intro seen acc h
    have h' := bestInv_step appErr seen acc a h
    have := ih (seen ++ [a]) (getBestStep appErr acc a) h'
    simpa using this

/-- Counterexample to C3 as stated: a non-empty snapshot list containing a
single healthy (non-error, long) `fallback` snapshot, for which the
selection returns nothing at all — stages with negative priority can never
be returned because `bestPriority` starts at `-1`. -/
theorem getBestHTML_fallback_only_cex :
    (([⟨"<html><body>plenty of perfectly usable content</body></html>",
        "https://example.com", "fallback", 5000⟩] : List HTMLSnapshot) ≠ []) ∧
    ¬((fun _ : String => false) "<html><body>plenty of perfectly usable content</body></html>" = true ∧
        (5000 : Nat) < 1000) ∧
    getBestHTML (fun _ => false)
      [⟨"<html><body>plenty of perfectly usable content</body></html>",
        "https://example.com", "fallback", 5000⟩] = none := by
  refine ⟨by simp, by simp, ?_⟩
  rfl

/-- C3 (amended). `getBestHTML` returns a snapshot of maximal stage
priority among the snapshots of non-negative priority that are not short
application-error pages (order: stable 6 > stable-timeout 5 >
stable-interrupted 4 > after-scroll 3 > after-consent 2 > periodic 1 >
initial/minimal/stability-check 0), ties broken by longer trimmed length;
snapshots of negative priority (the minimal/fallback variants) or that look
like an application-error page and are short are never returned, and when
only such snapshots are present the selection returns nothing. -/
theorem getBestHTML_selects_best_eligible (appErr : String → Bool)
    (snaps : List HTMLSnapshot) :
    (getBestHTML appErr snaps = none → ∀ s ∈ snaps, ¬ eligibleSnap appErr s) ∧
    (∀ b, getBestHTML appErr snaps = some b →
      b ∈ snaps ∧ eligibleSnap appErr b ∧
      ∀ s ∈ snaps, eligibleSnap appErr s →
        stagePriority s.stage < stagePriority b.stage ∨
        (stagePriority s.stage = stagePriority b.stage ∧ s.length ≤ b.length)) := by
  by_cases hempty : snaps.isEmpty
  · constructor
    · intro _ s hs
      rw [List.isEmpty_iff] at hempty
      subst hempty
      simp at hs
    · intro b hb
      rw [getBestHTML, if_pos hempty] at hb
      simp at hb
  · have hinv : bestInv appErr ([] ++ snaps)
        (snaps.foldl (getBestStep appErr) (none, -1)) := by
      apply bestInv_foldl
      refine ⟨fun _ => ⟨rfl, by simp⟩, fun b hb => by simp at hb⟩
    simp only [List.nil_append] at hinv
    constructor
    · intro hn s hs
      rw [getBestHTML, if_neg hempty] at hn
      exact (hinv.1 hn).2 s hs
    · intro b hb
      rw [getBestHTML, if_neg hempty] at hb
      obtain ⟨_, h2, h3, h4⟩ := hinv.2 b hb
      exact ⟨h3, h2, h4⟩

/-- Witness for C3's amended theorem: on a periodic and a stable snapshot
the selection returns the stable one, which dominates every eligible
snapshot of the list. -/
theorem getBestHTML_selects_best_eligible_witness :
    (⟨"b", "u", "stable", 30⟩ : HTMLSnapshot) ∈
        ([⟨"a", "u", "periodic", 50⟩, ⟨"b", "u", "stable", 30⟩] : List HTMLSnapshot) ∧
      eligibleSnap (fun _ => false) ⟨"b", "u", "stable", 30⟩ ∧
      ∀ s ∈ ([⟨"a", "u", "periodic", 50⟩, ⟨"b", "u", "stable", 30⟩] : List HTMLSnapshot),
        eligibleSnap (fun _ => false) s →
        stagePriority s.stage < stagePriority "stable" ∨
        (stagePriority s.stage = stagePriority "stable" ∧ s.length ≤ 30) :=
  (getBestHTML_selects_best_eligible (fun _ => false)
    [⟨"a", "u", "periodic", 50⟩, ⟨"b", "u", "stable", 30⟩]).2
    ⟨"b", "u", "stable", 30⟩ rfl

end Scraper

namespace Scraper

/-! ## Image candidate engine (images.go)

URLs are modelled structurally: `base` stands for the scheme/host/path
serialization, with the query string and fragment held separately, so that
`cleanImageURL` (which parses the URL and clears `RawQuery`) is the function
clearing the `query` field.  The `config` package of the repository is not
under src/, so the configuration the image engine reads (aspect-ratio
whitelist, ratio tolerance, ad-size table) is carried as an explicit record,
exactly as the Go methods read it from `ie.config`; all theorems quantify
over it.  Float scores are modelled as exact rationals. -/

/-- Structural model of a parsed image URL. -/
structure ImgURL where
  base : String
  query : String
  fragment : String
deriving DecidableEq, Repr

/-- Model of `cleanImageURL` (images.go lines 918–926): parse and clear the
query string. -/
def cleanImageURL (u : ImgURL) : ImgURL := { u with query := "" }

/-- The output type `models.Image`: canonical URL plus alt text. -/
structure Image where
  url : ImgURL
  alt : String
deriving DecidableEq, Repr

/-- The `models.ImageCandidate` record.  The float64 `Score` of the source
is represented exactly in integer half-point units: every increment the
source ever adds is 2.0, 1.5, 1.0 or a whole number, so doubling every
score is an order-preserving exact representation (rational arithmetic does
not evaluate inside the kernel). -/
structure ImageCandidate where
  url : ImgURL
  alt : String
  width : Int
  height : Int
  inArticle : Bool
  badHint : Bool
  source : String
  score : Int
  area : Int
deriving DecidableEq, Repr

/-- The configuration record read by the scoring and filtering functions
(`config.DefaultImageConfig`; the config package itself is outside src/). -/
structure ImageConfig where
  ratioWhitelist : List Rat
  ratioTol : Rat
  adSizes : List (Int × Int)
deriving DecidableEq, Repr

/-- Model of `isAdSize` (images.go lines 813–820): dimension-pair lookup in
the ad-size table. -/
def isAdSize (cfg : ImageConfig) (width height : Int) : Bool :=
  if width = 0 ∨ height = 0 then false
  else decide ((width, height) ∈ cfg.adSizes)

/-- Model of the `log10` helper (images.go lines 967–981): number of
divisions by 10 until the value drops below 10; 0 for non-positive input. -/
def log10Count (x : Int) : Nat :=
  if x ≤ 0 then 0 else Nat.log 10 x.toNat

/-- Model of `calculateScore` (images.go lines 823–854), in half-point
units: the source adds 2.0 for in-article, 1.5 for og/JSON-LD source, 1.0
for a whitelisted aspect ratio and the integer `log10` area bonus — here
4, 3, 2 and twice the bonus. -/
def calculateScore (cfg : ImageConfig) (c : ImageCandidate) : Int :=
  (if c.inArticle = true then 4 else 0) +
  (if c.source = "og" ∨ c.source = "jsonld" then 3 else 0) +
  (if 0 < c.width ∧ 0 < c.height ∧
      cfg.ratioWhitelist.any
        (fun r => decide (|(c.width : Rat) / (c.height : Rat) - r| ≤ cfg.ratioTol))
    then 2 else 0) +
  (if 0 < c.width * c.height then 2 * (log10Count (c.width * c.height) : Int) else 0)

/-- Model of `passesBasicFilters` (images.go lines 720–752). -/
def passesBasicFilters (cfg : ImageConfig) (c : ImageCandidate) : Bool :=
  if 0 < c.width ∧ 0 < c.height then
    if c.width ≤ c.height then false
    else if c.width < 600 then false
    else if min c.width c.height < 100 then false
    else if isAdSize cfg c.width c.height then false
    else if c.badHint = true ∧ min c.width c.height < 200 then false
    else true
  else !c.badHint

/-- Model of `filterArticleImages` (images.go lines 680–700): keep in-article
candidates passing the basic filters, deriving score and area. -/
def filterArticleImages (cfg : ImageConfig) (cands : List ImageCandidate) :
    List ImageCandidate :=
  cands.filterMap (fun c =>
    if c.inArticle = true ∧ passesBasicFilters cfg c = true then
      some { c with score := calculateScore cfg c, area := c.width * c.height }
    else none)

/-- The comparison swapped on by the bubble sort of `sortCandidates`
(images.go line 862): strictly lower score, or equal score and strictly
smaller area. -/
def candLt (a b : ImageCandidate) : Bool :=
  decide (a.score < b.score) || (decide (a.score = b.score) && decide (a.area < b.area))

/-- Carry step of one bubble pass: thread the currently carried element
through the list, swapping whenever it compares strictly below its right
neighbour — exactly the adjacent-swap sequence of the inner loop of
`sortCandidates`. -/
def passAux : ImageCandidate → List ImageCandidate → List ImageCandidate
  | a, [] => [a]
  | a, b :: rest => if candLt a b then b :: passAux a rest else a :: passAux b rest

/-- One bubble pass: swap adjacent out-of-order pairs left to right, as the
inner loop of `sortCandidates` does. -/
def bubblePass : List ImageCandidate → List ImageCandidate
  | [] => []
  | a :: rest => passAux a rest

theorem bubblePass_cons_cons (a b : ImageCandidate) (rest : List ImageCandidate) :
    bubblePass (a :: b :: rest) =
      if candLt a b then b :: bubblePass (a :: rest) else a :: bubblePass (b :: rest) := rfl

/-- Model of `sortCandidates` (images.go lines 857–868): `n-1` bubble passes
over a list of length `n` (the Go inner loop's shrinking bound only skips
comparisons in the already-settled tail, where a full pass swaps nothing). -/
def sortCandidates (l : List ImageCandidate) : List ImageCandidate :=
  bubblePass^[l.length - 1] l

/-- Alt-text backfill of `getTopImages` (images.go lines 882–887): an entry
with empty alt adopts the alt of a later duplicate. -/
def backfillAlt (img : Image) (c : ImageCandidate) : Image :=
  if img.alt = "" ∧ c.alt ≠ "" then { img with alt := c.alt } else img

/-- One step of the `getTopImages` dedup loop: a first-seen URL is appended,
a duplicate URL only backfills the alt of the existing entry. -/
def dedupInsert (acc : List Image) (c : ImageCandidate) : List Image :=
  if acc.any (fun img => decide (img.url = c.url)) then
    acc.map (fun img => if img.url = c.url then backfillAlt img c else img)
  else acc ++ [⟨c.url, c.alt⟩]

/-- Model of `getTopImages` (images.go lines 871–899): dedup by exact URL in
first-seen order with alt backfill, then cap at `limit`. -/
def getTopImages (candidates : List ImageCandidate) (limit : Nat) : List Image :=
  (candidates.foldl dedupInsert []).take limit

/-- The fan-in of the three concurrent extraction goroutines
(`ExtractImagesFromHTML`, images.go lines 45–91): the og batch, the JSON-LD
batch and the article-img batch arrive on the channel in a
scheduler-dependent order, modelled by the index list `order`. -/
def collectCandidates (og jl im : List ImageCandidate) (order : List Nat) :
    List ImageCandidate :=
  (order.map (fun i => [og, jl, im].getD i [])).flatten

/-- The deterministic tail of `ExtractImagesFromHTML` applied to the
collected candidates: filter and score, sort, dedup and cap at 10. -/
def extractImagesPipeline (cfg : ImageConfig) (og jl im : List ImageCandidate)
    (order : List Nat) : List Image :=
  getTopImages (sortCandidates (filterArticleImages cfg (collectCandidates og jl im order))) 10

/-! ### DOM-context summaries for the structural and link-density layers

`isInLinkList`, `isExcludedSection` and the article-container matching of
`extractArticleImgTags` read, from the goquery document, only per-element
data: tag name, class/id/data attributes, the number of `<a>` descendants,
and the width signals of the `<img>` descendants.  An ancestor chain is
modelled as the list of these summaries, nearest ancestor first, exactly the
order `s.Parents()` yields. -/

/-- Width signals of one `<img>` inside a container: the parsed `width`
attribute (when present and numeric) and the parsed `width: ...px` inline
style. -/
structure ImgSig where
  widthAttr : Option Int
  styleWidth : Option Rat
deriving DecidableEq, Repr

/-- Summary of one ancestor element. `dataAttrs` is the concatenation of the
four `data-*` attributes `isExcludedSection` collects. -/
structure AncestorElem where
  tag : String
  classAttr : String
  idAttr : String
  dataAttrs : String
  itemprop : String
  linkCount : Nat
  imgs : List ImgSig
deriving DecidableEq, Repr

/-- Whether `pat` is a leading sequence of `s` (helper for the substring
test `strings.Contains`). -/
def leadMatch : List Char → List Char → Bool
  | [], _ => true
  | _ :: _, [] => false
  | p :: ps, c :: cs => p == c && leadMatch ps cs

/-- Whether `pat` occurs inside `s` (helper for `strings.Contains`). -/
def hasSub (pat : List Char) : List Char → Bool
  | [] => leadMatch pat []
  | c :: cs => leadMatch pat (c :: cs) || hasSub pat cs

/-- Model of `strings.Contains(s, pat)`. -/
def strHas (s pat : String) : Bool := hasSub pat.data s.data

/-- Model of `strings.ToLower` over the character list (the string-level
function of core Lean is defined by well-founded recursion and does not
evaluate inside the kernel). -/
def lowerChars (l : List Char) : List Char := l.map Char.toLower

/-- Split a character list on spaces, keeping empty segments (model of the
class-attribute tokenization used for CSS class matching). -/
def splitOnSpace : List Char → List Char → List (List Char)
  | [], acc => [acc.reverse]
  | c :: cs, acc =>
    if c = ' ' then acc.reverse :: splitOnSpace cs [] else splitOnSpace cs (c :: acc)

/-- The exclusion pattern list of `isExcludedSection` (images.go lines
551–583). -/
def exclusionPatterns : List String :=
  ["sidebar", "side-bar", "side_bar",
   "related", "related-posts", "related-articles", "related-content", "related-stories",
   "featured", "featured-posts", "featured-articles", "featured-content", "featured-stories",
   "popular", "trending", "most-read", "most-popular",
   "recommended", "recommendation", "you-may-like",
   "widget", "banner",
   "advertisement", "ad-", "advert",
   "navigation", "nav-", "navbar",
   "menu", "footer", "header", "carousel", "slider", "gallery", "aside",
   "promo", "promotion", "sponsored",
   "more-stories", "more-articles", "more-news",
   "latest-posts", "latest-articles", "latest-news", "latest-stories",
   "recent-posts", "recent-articles", "recent-news",
   "top-stories", "top-posts",
   "highlights", "must-read", "dont-miss",
   "editor-pick", "editor-choice",
   "read-more", "read-next",
   "story-list", "post-list",
   "grid-items", "list-items"]

/-- Model of `isExcludedSection` (images.go lines 535–592): lower-cased
class/id/data attributes matched against the pattern list. -/
def isExcludedSection (a : AncestorElem) : Bool :=
  let combined := lowerChars (a.classAttr ++ " " ++ a.idAttr ++ " " ++ a.dataAttrs).data
  exclusionPatterns.any (fun p => hasSub p.data combined)

/-- The per-image scan of `isInLinkList` (images.go lines 641–663):
accumulator is `(hasLargeImage, smallImageCount)`; the style check runs only
while no large image has been seen, exactly as in the source. -/
def imgScanStep (acc : Bool × Nat) (img : ImgSig) : Bool × Nat :=
  let acc1 :=
    match img.widthAttr with
    | some w => if 400 < w then (true, acc.2) else if 0 < w then (acc.1, acc.2 + 1) else acc
    | none => acc
  if acc1.1 = false then
    match img.styleWidth with
    | some sw => if 400 < sw then (true, acc1.2) else acc1
    | none => acc1
  else acc1

/-- Whether one ancestor container triggers the thumbnail-grid exclusion
(the body of the `isInLinkList` loop, images.go lines 619–673). -/
def containerTriggers (a : AncestorElem) : Bool :=
  if 3 ≤ a.linkCount ∧ 2 ≤ a.imgs.length then
    if a.tag = "ul" ∨ a.tag = "ol" ∨ a.tag = "nav" then true
    else
      let scan := a.imgs.foldl imgScanStep (false, 0)
      if scan.1 = false ∧ 2 ≤ scan.2 ∧ 6 ≤ a.linkCount then true else false
  else false

/-- Model of `isInLinkList` (images.go lines 615–677): walk at most five
ancestor levels; excluded as soon as one container triggers. -/
def isInLinkList (chain : List AncestorElem) : Bool :=
  (chain.take 5).any containerTriggers

/-- Model of `isInExcludedSection` (images.go lines 595–612) for an element
whose ancestor chain is `chain`: some ancestor matches the exclusion
patterns, or the element sits in a link list. -/
def isInExcludedSectionChain (chain : List AncestorElem) : Bool :=
  chain.any isExcludedSection || isInLinkList chain

/-- Does the class attribute contain `w` as one of its space-separated
class words (CSS class selector matching)? -/
def hasClassWord (a : AncestorElem) (w : String) : Bool :=
  (splitOnSpace a.classAttr.data []).any (fun x => decide (x = w.data))

/-- Whether an element matches one of the article-container selectors of
`extractArticleImgTags` (images.go lines 266–272) given its own ancestor
list `above`: `main article`, `article .article-body`,
`article #article-body`, `section[itemprop='articleBody']`,
`[itemprop='articleBody']`. -/
def articleContainerMatch (e : AncestorElem) (above : List AncestorElem) : Bool :=
  (decide (e.tag = "article") && above.any (fun b => decide (b.tag = "main"))) ||
  (hasClassWord e "article-body" && above.any (fun b => decide (b.tag = "article"))) ||
  (decide (e.idAttr = "article-body") && above.any (fun b => decide (b.tag = "article"))) ||
  (decide (e.tag = "section") && decide (e.itemprop = "articleBody")) ||
  decide (e.itemprop = "articleBody")

/-- A DOM `<img>` as the strict extraction path sees it: the candidate data
`extractImgTag` builds from its attributes, plus the summary of its ancestor
chain. -/
structure DomImg where
  cand : ImageCandidate
  chain : List AncestorElem
deriving DecidableEq, Repr

/-- Admission test of the strict path (`extractArticleImgTags`, images.go
lines 263–289): the image is collected when some ancestor matches an
article-container selector and that container is not itself inside an
excluded section or link list (`isInExcludedSection(container)`). -/
def admittedByArticleScan (chain : List AncestorElem) : Bool :=
  (List.range chain.length).any (fun k =>
    articleContainerMatch (chain.getD k ⟨"", "", "", "", "", 0, []⟩) (chain.drop (k + 1)) &&
    !(isInExcludedSectionChain (chain.drop (k + 1))))

/-- Model of the candidate `extractOgImage` builds (images.go lines
251–259): cleaned URL, `InArticle: true`, `BadHint: false`, source `og`. -/
def mkOgCandidate (url : ImgURL) (alt : String) (w h : Int) : ImageCandidate :=
  { url := cleanImageURL url, alt := alt, width := w, height := h,
    inArticle := true, badHint := false, source := "og", score := 0, area := 0 }

/-- Model of the candidate `extractJSONLDImage` builds (images.go lines
176–184): cleaned URL, no dimensions, `InArticle: true`, source `jsonld`. -/
def mkJsonldCandidate (url : ImgURL) (alt : String) : ImageCandidate :=
  { url := cleanImageURL url, alt := alt, width := 0, height := 0,
    inArticle := true, badHint := false, source := "jsonld", score := 0, area := 0 }

/-- The candidate set collected by `ExtractImagesFromHTML` before filtering:
the og candidate and the JSON-LD candidate (when present) enter
unconditionally; DOM images enter through the strict article scan, which
stamps `InArticle: true` on them (images.go line 282). -/
def imageCandidateSet (og : Option (ImgURL × String × Int × Int))
    (jl : Option (ImgURL × String)) (doms : List DomImg) : List ImageCandidate :=
  (og.map (fun o => mkOgCandidate o.1 o.2.1 o.2.2.1 o.2.2.2)).toList ++
  (jl.map (fun o => mkJsonldCandidate o.1 o.2)).toList ++
  (doms.filter (fun d => admittedByArticleScan d.chain)).map
    (fun d => { d.cand with inArticle := true })

end Scraper

namespace Scraper

/-! ### C8: the two-tier thumbnail-grid exclusion -/

theorem imgScan_all_small (imgs : List ImgSig)
    (h : ∀ img ∈ imgs, (∃ w, img.widthAttr = some w ∧ 0 < w ∧ w ≤ 400) ∧
      (∀ sw, img.styleWidth = some sw → sw ≤ 400)) :
    ∀ c, imgs.foldl imgScanStep (false, c) = (false, c + imgs.length) := by
  induction imgs with
  | nil => intro c; simp
  | cons img rest ih =>
    intro c
    obtain ⟨⟨w, hw, hw0, hw400⟩, hstyle⟩ := h img (by simp)
    have hnot : ¬ (400 : Int) < w := by omega
    have hstep : imgScanStep (false, c) img = (false, c + 1) := by
      cases hsw : img.styleWidth with
      | none => simp [imgScanStep, hw, hsw, hnot, hw0]
      | some sw =>
        have hle : ¬ (400 : Rat) < sw := not_lt.mpr (hstyle sw hsw)
        simp [imgScanStep, hw, hsw, hnot, hw0, hle]
    rw [List.foldl_cons, hstep]
    have hrest := ih (fun i hi => h i (List.mem_cons_of_mem _ hi)) (c + 1)
    rw [hrest]
    simp
    omega

theorem imgScan_sticky (imgs : List ImgSig) :
    ∀ c, (imgs.foldl imgScanStep (true, c)).1 = true := by
  induction imgs with
  | nil => intro c; simp
  | cons img rest ih =>
    intro c
    rw [List.foldl_cons]
    have hstep : ∃ c', imgScanStep (true, c) img = (true, c') := by
      cases hattr : img.widthAttr with
      | none => exact ⟨c, by simp [imgScanStep, hattr]⟩
      | some w =>
        by_cases h4 : 400 < w
        · exact ⟨c, by simp [imgScanStep, hattr, h4]⟩
        · by_cases h0 : 0 < w
          · exact ⟨c + 1, by simp [imgScanStep, hattr, h4, h0]⟩
          · exact ⟨c, by simp [imgScanStep, hattr, h4, h0]⟩
    obtain ⟨c', hc'⟩ := hstep
    rw [hc']
    exact ih c'

theorem imgScan_hits_large (imgs : List ImgSig)
    (h : ∃ img ∈ imgs, ∃ w, img.widthAttr = some w ∧ 400 < w) :
    ∀ acc, (imgs.foldl imgScanStep acc).1 = true := by
  induction imgs with
  | nil => simp at h
  | cons img rest ih =>
    intro acc
    obtain ⟨i, hi, w, hw, h4⟩ := h
    rcases List.mem_cons.mp hi with rfl | hi'
    · rw [List.foldl_cons]
      have hstep : imgScanStep acc i = (true, acc.2) := by
        simp [imgScanStep, hw, h4]
      rw [hstep]
      exact imgScan_sticky rest acc.2
    · rw [List.foldl_cons]
      exact ih ⟨i, hi', w, hw, h4⟩ _

/-- C8. (a) A candidate with an ancestor container within 5 levels holding
6 links and 3 images, all images carrying an explicit positive width
attribute of at most 400 px (and no larger inline-style width), is excluded
by the link-density check.  (b) For a container that is not a
list/nav-semantic element and holds at least one image with an explicit
width attribute above 400 px, the link-density check excludes none of its
candidates, whatever the link count. -/
theorem isInLinkList_grid_criterion :
    (∀ chain : List AncestorElem,
      (∃ p ∈ chain.take 5, p.linkCount = 6 ∧ p.imgs.length = 3 ∧
        ∀ img ∈ p.imgs, (∃ w, img.widthAttr = some w ∧ 0 < w ∧ w ≤ 400) ∧
          (∀ sw, img.styleWidth = some sw → sw ≤ 400)) →
      isInLinkList chain = true) ∧
    (∀ a : AncestorElem,
      ¬(a.tag = "ul" ∨ a.tag = "ol" ∨ a.tag = "nav") →
      (∃ img ∈ a.imgs, ∃ w, img.widthAttr = some w ∧ 400 < w) →
      isInLinkList [a] = false) := by
  constructor
  · rintro chain ⟨p, hp, hlink, hlen, hall⟩
    apply List.any_eq_true.mpr
    refine ⟨p, hp, ?_⟩
    unfold containerTriggers
    rw [if_pos (by omega)]
    by_cases htag : p.tag = "ul" ∨ p.tag = "ol" ∨ p.tag = "nav"
    · rw [if_pos htag]
    · rw [if_neg htag]
      have hscan := imgScan_all_small p.imgs hall 0
      simp [hscan, hlen, hlink]
  · intro a htag hbig
    have hct : containerTriggers a = false := by
      unfold containerTriggers
      by_cases hc1 : 3 ≤ a.linkCount ∧ 2 ≤ a.imgs.length
      · rw [if_pos hc1, if_neg htag]
        have hscan := imgScan_hits_large a.imgs hbig (false, 0)
        simp only []
        rw [if_neg (by simp [hscan])]
      · rw [if_neg hc1]
    show ([a].take 5).any containerTriggers = false
    simp [hct]

/-- Witness for C8: a 6-link container with three thumbnails of widths
150/200/300 px is excluded; the same container with one 500 px image is
not. -/
theorem isInLinkList_grid_criterion_witness :
    isInLinkList [⟨"div", "", "", "", "", 6,
        [⟨some 150, none⟩, ⟨some 200, none⟩, ⟨some 300, none⟩]⟩] = true ∧
    isInLinkList [⟨"div", "", "", "", "", 6,
        [⟨some 500, none⟩, ⟨some 150, none⟩, ⟨some 150, none⟩]⟩] = false := by
  constructor
  · apply isInLinkList_grid_criterion.1
    refine ⟨⟨"div", "", "", "", "", 6,
      [⟨some 150, none⟩, ⟨some 200, none⟩, ⟨some 300, none⟩]⟩, by simp, rfl, rfl, ?_⟩
    intro img himg
    fin_cases himg
    · exact ⟨⟨150, rfl, by decide, by decide⟩, fun sw hsw => by simp at hsw⟩
    · exact ⟨⟨200, rfl, by decide, by decide⟩, fun sw hsw => by simp at hsw⟩
    · exact ⟨⟨300, rfl, by decide, by decide⟩, fun sw hsw => by simp at hsw⟩
  · apply isInLinkList_grid_criterion.2
    · decide
    · exact ⟨⟨some 500, none⟩, by simp, 500, rfl, by decide⟩

end Scraper

namespace Scraper

/-! ### C9: admission of og / JSON-LD / DOM image candidates -/

/-- Ancestor chain of the counterexample image: a `carousel`-classed div
inside `article` inside `main` — the pre-pass of `preprocessHTML` removes
none of these elements, yet `carousel` is on the exclusion pattern list. -/
def cexChain : List AncestorElem :=
  [⟨"div", "carousel", "", "", "", 0, []⟩,
   ⟨"article", "", "", "", "", 1, [⟨some 800, none⟩]⟩,
   ⟨"main", "", "", "", "", 1, [⟨some 800, none⟩]⟩,
   ⟨"body", "", "", "", "", 1, [⟨some 800, none⟩]⟩,
   ⟨"html", "", "", "", "", 1, [⟨some 800, none⟩]⟩]

/-- The counterexample DOM image inside that chain. -/
def cexDomImg : DomImg :=
  ⟨⟨⟨"https://x/a.jpg", "", ""⟩, "", 800, 600, false, false, "img", 0, 0⟩, cexChain⟩

set_option maxRecDepth 4000 in
/-- Counterexample to C9 as stated: a DOM image inside a `carousel`
container within `article`/`main` fails the per-candidate structural
exclusion (its own ancestor chain is inside an excluded section), yet the
strict extraction path admits it to the candidate set — the exclusion and
link-density layers are consulted for the matched article container only,
never for the candidate's own ancestor chain. -/
theorem domImg_admission_cex :
    admittedByArticleScan cexChain = true ∧
    isInExcludedSectionChain cexChain = true ∧
    ({ cexDomImg.cand with inArticle := true } ∈ imageCandidateSet none none [cexDomImg]) := by
  refine ⟨by decide, by decide, by decide⟩

/-- C9 (amended).  The Open Graph candidate and the JSON-LD candidate, when
present, always enter the candidate set and are stamped in-article,
regardless of every exclusion layer; a DOM `<img>` enters the set whenever
some ancestor matches an article-container selector such that the matched
container itself is not inside an excluded section or link list — the
structural-exclusion and link-density layers are applied to the matched
container, not to the candidate's own chain below it. -/
theorem imageCandidateSet_admission
    (og : Option (ImgURL × String × Int × Int)) (jl : Option (ImgURL × String))
    (doms : List DomImg) :
    (∀ o, og = some o →
      mkOgCandidate o.1 o.2.1 o.2.2.1 o.2.2.2 ∈ imageCandidateSet og jl doms ∧
      (mkOgCandidate o.1 o.2.1 o.2.2.1 o.2.2.2).inArticle = true) ∧
    (∀ o, jl = some o →
      mkJsonldCandidate o.1 o.2 ∈ imageCandidateSet og jl doms ∧
      (mkJsonldCandidate o.1 o.2).inArticle = true) ∧
    (∀ d ∈ doms,
      (admittedByArticleScan d.chain = true ↔
        ∃ k < d.chain.length,
          articleContainerMatch (d.chain.getD k ⟨"", "", "", "", "", 0, []⟩)
            (d.chain.drop (k + 1)) = true ∧
          isInExcludedSectionChain (d.chain.drop (k + 1)) = false) ∧
      (admittedByArticleScan d.chain = true →
        ({ d.cand with inArticle := true } ∈ imageCandidateSet og jl doms))) := by
  refine ⟨?_, ?_, ?_⟩
  · rintro o rfl
    refine ⟨?_, rfl⟩
    simp [imageCandidateSet]
  · rintro o rfl
    refine ⟨?_, rfl⟩
    cases og with
    | none => simp [imageCandidateSet]
    | some o' => simp [imageCandidateSet]
  · intro d hd
    constructor
    · unfold admittedByArticleScan
      rw [List.any_eq_true]
      constructor
      · rintro ⟨k, hk, hf⟩
        rw [List.mem_range] at hk
        rw [Bool.and_eq_true, Bool.not_eq_true'] at hf
        exact ⟨k, hk, hf.1, hf.2⟩
      · rintro ⟨k, hk, hmatch, hexc⟩
        refine ⟨k, List.mem_range.mpr hk, ?_⟩
        rw [Bool.and_eq_true, Bool.not_eq_true']
        exact ⟨hmatch, hexc⟩
    · intro hadm
      have hmem : d ∈ doms.filter (fun d => admittedByArticleScan d.chain) :=
        List.mem_filter.mpr ⟨hd, hadm⟩
      apply List.mem_append.mpr
      right
      exact List.mem_map.mpr ⟨d, hmem, rfl⟩

/-- Og-image data for the C9 witness. -/
def ogW : Option (ImgURL × String × Int × Int) :=
  some (⟨"https://x/og.jpg", "", ""⟩, "hero", 0, 0)

/-- DOM image in a clean `article`-in-`main` chain for the C9 witness. -/
def domW : DomImg :=
  ⟨⟨⟨"https://x/a.jpg", "", ""⟩, "", 800, 600, false, false, "img", 0, 0⟩,
   [⟨"article", "", "", "", "", 1, [⟨some 800, none⟩]⟩,
    ⟨"main", "", "", "", "", 1, [⟨some 800, none⟩]⟩]⟩

/-- Witness for C9's amended theorem: an og image plus one DOM image in a
clean `article`-in-`main` chain; both reach the candidate set. -/
theorem imageCandidateSet_admission_witness :
    (mkOgCandidate ⟨"https://x/og.jpg", "", ""⟩ "hero" 0 0 ∈
        imageCandidateSet ogW none [domW] ∧
      (mkOgCandidate ⟨"https://x/og.jpg", "", ""⟩ "hero" 0 0).inArticle = true) ∧
    ({ domW.cand with inArticle := true } ∈ imageCandidateSet ogW none [domW]) := by
  refine ⟨(imageCandidateSet_admission ogW none [domW]).1 _ rfl, ?_⟩
  exact ((imageCandidateSet_admission ogW none [domW]).2.2 domW (by decide)).2 (by decide)

end Scraper

namespace Scraper

/-! ### C4: deduplication, cap and alt backfill of `getTopImages` -/

/-- Candidates that can contribute an alt for URL `u`: same URL, non-empty
alt. -/
def altPred (u : ImgURL) (c : ImageCandidate) : Bool :=
  decide (c.url = u) && decide (¬ c.alt = "")

/-- First non-empty alt among the candidates with exactly URL `u`. -/
def firstAltEx (cands : List ImageCandidate) (u : ImgURL) : String :=
  match cands.filter (altPred u) with
  | [] => ""
  | c :: _ => c.alt

/-- First non-empty alt among the candidates whose canonicalized
(query-stripped) URL equals that of `u` — the merge key of the claim. -/
def firstNonEmptyAlt (cands : List ImageCandidate) (u : ImgURL) : String :=
  match cands.filter
      (fun c => decide (cleanImageURL c.url = cleanImageURL u) && decide (¬ c.alt = "")) with
  | [] => ""
  | c :: _ => c.alt

theorem backfillAlt_url (img : Image) (c : ImageCandidate) :
    (backfillAlt img c).url = img.url := by
  unfold backfillAlt
  split <;> rfl

theorem firstAltEx_eq_empty_iff (l : List ImageCandidate) (u : ImgURL) :
    firstAltEx l u = "" ↔ l.filter (altPred u) = [] := by
  cases hf : l.filter (altPred u) with
  | nil => simp [firstAltEx, hf]
  | cons c t =>
    simp only [firstAltEx, hf]
    constructor
    · intro hc
      exfalso
      have hcmem : c ∈ l.filter (altPred u) := by
        rw [hf]; exact List.mem_cons_self _ _
      have hpred := (List.mem_filter.mp hcmem).2
      simp only [altPred, Bool.and_eq_true, decide_eq_true_eq] at hpred
      exact hpred.2 hc
    · intro h
      cases h

theorem firstAltEx_append (l1 l2 : List ImageCandidate) (u : ImgURL) :
    firstAltEx (l1 ++ l2) u =
      if l1.filter (altPred u) = [] then firstAltEx l2 u else firstAltEx l1 u := by
  simp only [firstAltEx, List.filter_append]
  cases hf : l1.filter (altPred u) with
  | nil => simp
  | cons c t => simp

/-- Invariant of the `getTopImages` dedup loop over the processed prefix:
URLs in the accumulator are pairwise distinct, each entry's alt is the first
non-empty alt of the prefix for its URL, every entry's URL comes from the
prefix, and every prefix URL is represented. -/
def dedupInv (pre : List ImageCandidate) (acc : List Image) : Prop :=
  acc.Pairwise (fun a b => a.url ≠ b.url) ∧
  (∀ img ∈ acc, img.alt = firstAltEx pre img.url) ∧
  (∀ img ∈ acc, ∃ c ∈ pre, c.url = img.url) ∧
  (∀ c ∈ pre, ∃ img ∈ acc, img.url = c.url)

theorem dedupInv_step (pre : List ImageCandidate) (acc : List Image)
    (c : ImageCandidate) (h : dedupInv pre acc) :
    dedupInv (pre ++ [c]) (dedupInsert acc c) := by
  obtain ⟨hpw, halt, hsrc, hcov⟩ := h
  unfold dedupInsert
  by_cases hany : acc.any (fun img => decide (img.url = c.url)) = true
  · rw [if_pos hany]
    have hfurl : ∀ img : Image,
        ((fun img : Image => if img.url = c.url then backfillAlt img c else img) img).url =
          img.url := by
      intro img
      by_cases h : img.url = c.url
      · simp only [if_pos h, backfillAlt_url]
      · simp only [if_neg h]
    refine ⟨?_, ?_, ?_, ?_⟩
    · rw [List.pairwise_map]
      exact hpw.imp (fun {a b} hab => by rw [hfurl, hfurl]; exact hab)
    · intro img' himg'
      rw [List.mem_map] at himg'
      obtain ⟨img, himg, rfl⟩ := himg'
      rw [hfurl]
      by_cases hu : img.url = c.url
      · simp only [if_pos hu]
        have halti := halt img himg
        by_cases hae : img.alt = ""
        · have h0 : firstAltEx pre img.url = "" := by rw [← halti, hae]
          have hempty : pre.filter (altPred img.url) = [] :=
            (firstAltEx_eq_empty_iff _ _).mp h0
          rw [firstAltEx_append, if_pos hempty]
          unfold backfillAlt
          by_cases hca : c.alt = ""
          · rw [if_neg (fun hcond => hcond.2 hca)]
            rw [hae]
            simp [firstAltEx, List.filter, altPred, hca]
          · rw [if_pos ⟨hae, hca⟩]
            simp [firstAltEx, List.filter, altPred, hca, hu.symm]
        · have hne : firstAltEx pre img.url ≠ "" := by rw [← halti]; exact hae
          have hfil : ¬ pre.filter (altPred img.url) = [] :=
            fun hk => hne ((firstAltEx_eq_empty_iff _ _).mpr hk)
          rw [firstAltEx_append, if_neg hfil]
          unfold backfillAlt
          rw [if_neg (fun hcond => hae hcond.1)]
          exact halti
      · simp only [if_neg hu]
        rw [firstAltEx_append]
        by_cases hk : pre.filter (altPred img.url) = []
        · rw [if_pos hk]
          have h1 : firstAltEx [c] img.url = "" := by
            have hni : altPred img.url c = false := by
              simp only [altPred, Bool.and_eq_false_iff, decide_eq_false_iff_not]
              left
              exact fun h => hu h.symm
            simp [firstAltEx, List.filter, hni]
          rw [h1]
          exact (halt img himg).trans ((firstAltEx_eq_empty_iff _ _).mpr hk)
        · rw [if_neg hk]
          exact halt img himg
    · intro img' himg'
      rw [List.mem_map] at himg'
      obtain ⟨img, himg, rfl⟩ := himg'
      rw [hfurl]
      obtain ⟨c', hc', hcu⟩ := hsrc img himg
      exact ⟨c', List.mem_append.mpr (Or.inl hc'), hcu⟩
    · intro c' hc'
      rcases List.mem_append.mp hc' with hc' | hc'
      · obtain ⟨img, himg, hiu⟩ := hcov c' hc'
        exact ⟨_, List.mem_map.mpr ⟨img, himg, rfl⟩, by rw [hfurl]; exact hiu⟩
      · simp only [List.mem_singleton] at hc'
        subst hc'
        rw [List.any_eq_true] at hany
        obtain ⟨img, himg, hdec⟩ := hany
        have hiu := of_decide_eq_true hdec
        exact ⟨_, List.mem_map.mpr ⟨img, himg, rfl⟩, by rw [hfurl]; exact hiu⟩
  · rw [if_neg hany]
    have hnotin : ∀ img ∈ acc, img.url ≠ c.url := by
      intro img himg heq
      exact hany (List.any_eq_true.mpr ⟨img, himg, decide_eq_true heq⟩)
    have hnopre : ∀ c' ∈ pre, c'.url ≠ c.url := by
      intro c' hc' heq
      obtain ⟨img, himg, hiu⟩ := hcov c' hc'
      exact hnotin img himg (hiu.trans heq)
    refine ⟨?_, ?_, ?_, ?_⟩
    · rw [List.pairwise_append]
      refine ⟨hpw, List.pairwise_singleton _ _, ?_⟩
      intro a ha b hb
      simp only [List.mem_singleton] at hb
      subst hb
      exact hnotin a ha
    · intro img himg
      rcases List.mem_append.mp himg with himg | himg
      · rw [firstAltEx_append]
        by_cases hk : pre.filter (altPred img.url) = []
        · rw [if_pos hk]
          have h1 : firstAltEx [c] img.url = "" := by
            have hni : altPred img.url c = false := by
              simp only [altPred, Bool.and_eq_false_iff, decide_eq_false_iff_not]
              left
              exact fun h => hnotin img himg h.symm
            simp [firstAltEx, List.filter, hni]
          rw [h1]
          exact (halt img himg).trans ((firstAltEx_eq_empty_iff _ _).mpr hk)
        · rw [if_neg hk]
          exact halt img himg
      · simp only [List.mem_singleton] at himg
        subst himg
        have hk : pre.filter (altPred c.url) = [] := by
          rw [List.filter_eq_nil_iff]
          intro c' hc'
          simp only [altPred, Bool.and_eq_true, decide_eq_true_eq, not_and]
          intro hcu
          exact absurd hcu (hnopre c' hc')
        show c.alt = firstAltEx (pre ++ [c]) c.url
        rw [firstAltEx_append, if_pos hk]
        by_cases hca : c.alt = ""
        · simp [firstAltEx, List.filter, altPred, hca]
        · simp [firstAltEx, List.filter, altPred, hca]
    · intro img himg
      rcases List.mem_append.mp himg with himg | himg
      · obtain ⟨c', hc', hcu⟩ := hsrc img himg
        exact ⟨c', List.mem_append.mpr (Or.inl hc'), hcu⟩
      · simp only [List.mem_singleton] at himg
        subst himg
        exact ⟨c, List.mem_append.mpr (Or.inr (by simp)), rfl⟩
    · intro c' hc'
      rcases List.mem_append.mp hc' with hc' | hc'
      · obtain ⟨img, himg, hiu⟩ := hcov c' hc'
        exact ⟨img, List.mem_append.mpr (Or.inl himg), hiu⟩
      · simp only [List.mem_singleton] at hc'
        exact ⟨⟨c.url, c.alt⟩, List.mem_append.mpr (Or.inr (by simp)), by rw [hc']⟩

theorem dedupInv_foldl :
    ∀ (l pre : List ImageCandidate) (acc : List Image),
      dedupInv pre acc → dedupInv (pre ++ l) (l.foldl dedupInsert acc) := by
  intro l
  induction l with
  | nil => intro pre acc h; simpa using h
  | cons a t ih =>
    intro pre acc h
    have h' := dedupInv_step pre acc a h
    have := ih (pre ++ [a]) (dedupInsert acc a) h'
    simpa using this

end Scraper

namespace Scraper

theorem cleanImageURL_eq_self {u : ImgURL} (h : u.query = "") : cleanImageURL u = u := by
  cases u
  simp_all [cleanImageURL]

theorem firstNonEmptyAlt_eq_firstAltEx (cands : List ImageCandidate) (u : ImgURL)
    (hc : ∀ c ∈ cands, c.url.query = "") (hu : u.query = "") :
    firstNonEmptyAlt cands u = firstAltEx cands u := by
  unfold firstNonEmptyAlt firstAltEx
  have hfeq : cands.filter
      (fun c => decide (cleanImageURL c.url = cleanImageURL u) && decide (¬ c.alt = "")) =
      cands.filter (altPred u) := by
    apply List.filter_congr
    intro c hcm
    simp only [altPred]
    rw [cleanImageURL_eq_self (hc c hcm), cleanImageURL_eq_self hu]
  rw [hfeq]

/-- C4. On candidates whose URLs have already been canonicalized (as every
candidate built by the extractors has, `cleanImageURL` being applied at
construction), the image list `getTopImages` returns holds at most 10
entries, never two entries with the same canonicalized (query-stripped) URL,
and gives each entry the first non-empty alt among the candidates merged
under its canonical URL. -/
theorem getTopImages_dedup_cap_alt (cands : List ImageCandidate)
    (hclean : ∀ c ∈ cands, c.url.query = "") :
    (getTopImages cands 10).length ≤ 10 ∧
    (getTopImages cands 10).Pairwise
      (fun a b => cleanImageURL a.url ≠ cleanImageURL b.url) ∧
    (∀ img ∈ getTopImages cands 10, img.alt = firstNonEmptyAlt cands img.url) := by
  have hgt : getTopImages cands 10 = (cands.foldl dedupInsert []).take 10 := rfl
  have hinv : dedupInv ([] ++ cands) (cands.foldl dedupInsert []) :=
    dedupInv_foldl cands [] [] ⟨List.Pairwise.nil, by simp, by simp, by simp⟩
  rw [List.nil_append] at hinv
  obtain ⟨hpw, halt, hsrc, hcov⟩ := hinv
  have hq : ∀ img ∈ cands.foldl dedupInsert [], img.url.query = "" := by
    intro img himg
    obtain ⟨c, hc, hcu⟩ := hsrc img himg
    rw [← hcu]
    exact hclean c hc
  refine ⟨?_, ?_, ?_⟩
  · rw [hgt]
    exact List.length_take_le _ _
  · rw [hgt]
    have hsub : List.Sublist ((cands.foldl dedupInsert []).take 10)
        (cands.foldl dedupInsert []) := List.take_sublist _ _
    have hpw10 : ((cands.foldl dedupInsert []).take 10).Pairwise
        (fun a b => a.url ≠ b.url) := hpw.sublist hsub
    refine List.Pairwise.imp_of_mem ?_ hpw10
    intro a b ha hb hab
    rw [cleanImageURL_eq_self (hq a (hsub.subset ha)),
      cleanImageURL_eq_self (hq b (hsub.subset hb))]
    exact hab
  · intro img himg
    rw [hgt] at himg
    have himg' : img ∈ cands.foldl dedupInsert [] := (List.take_subset _ _) himg
    rw [firstNonEmptyAlt_eq_firstAltEx cands img.url hclean (hq img himg')]
    exact halt img himg'

/-- Candidate list for the C4 witness: two candidates sharing a canonical
URL (the first with empty alt) plus one further URL. -/
def c4w : List ImageCandidate :=
  [⟨⟨"https://x/a.jpg", "", ""⟩, "", 0, 0, true, false, "og", 0, 0⟩,
   ⟨⟨"https://x/a.jpg", "", ""⟩, "first", 0, 0, true, false, "img", 0, 0⟩,
   ⟨⟨"https://x/b.jpg", "", ""⟩, "second", 0, 0, true, false, "img", 0, 0⟩]

/-- Witness for C4 at the concrete candidate list. -/
theorem getTopImages_dedup_cap_alt_witness :
    (getTopImages c4w 10).length ≤ 10 ∧
    (getTopImages c4w 10).Pairwise
      (fun a b => cleanImageURL a.url ≠ cleanImageURL b.url) ∧
    (∀ img ∈ getTopImages c4w 10, img.alt = firstNonEmptyAlt c4w img.url) :=
  getTopImages_dedup_cap_alt c4w (by decide)

end Scraper

namespace Scraper

/-! ### C10: determinism of the image pipeline -/

theorem candLt_eq_true_iff (a b : ImageCandidate) :
    candLt a b = true ↔ a.score < b.score ∨ (a.score = b.score ∧ a.area < b.area) := by
  simp [candLt]

theorem candLt_eq_false_iff (a b : ImageCandidate) :
    candLt a b = false ↔ b.score < a.score ∨ (b.score = a.score ∧ b.area ≤ a.area) := by
  rw [← Bool.not_eq_true, candLt_eq_true_iff]
  constructor
  · intro h
    push_neg at h
    obtain ⟨h1, h2⟩ := h
    rcases lt_or_eq_of_le h1 with hlt | heq
    · exact Or.inl hlt
    · exact Or.inr ⟨heq, h2 heq.symm⟩
  · intro h
    rintro (hc | ⟨hce, hca⟩)
    · rcases h with h | ⟨h1, _⟩
      · exact absurd hc (not_lt.mpr h.le)
      · exact absurd hc (not_lt.mpr (le_of_eq h1))
    · rcases h with h | ⟨_, h2⟩
      · exact absurd hce (ne_of_gt h)
      · exact absurd hca (not_lt.mpr h2)

theorem candLt_self (a : ImageCandidate) : candLt a a = false := by
  rw [candLt_eq_false_iff]
  exact Or.inr ⟨rfl, le_refl _⟩

theorem candLt_false_trans {a b c : ImageCandidate}
    (h1 : candLt a b = false) (h2 : candLt b c = false) : candLt a c = false := by
  rw [candLt_eq_false_iff] at h1 h2 ⊢
  rcases h1 with h1 | ⟨h1e, h1a⟩ <;> rcases h2 with h2 | ⟨h2e, h2a⟩
  · exact Or.inl (lt_trans h2 h1)
  · exact Or.inl (h2e ▸ h1)
  · exact Or.inl (h1e ▸ h2)
  · exact Or.inr ⟨h2e.trans h1e, le_trans h2a h1a⟩

theorem candLt_min_step {a b m : ImageCandidate}
    (hab : candLt a b = true) (ham : candLt a m = false) : candLt b m = false := by
  rw [candLt_eq_true_iff] at hab
  rw [candLt_eq_false_iff] at ham ⊢
  rcases ham with ham | ⟨hme, hma⟩ <;> rcases hab with hab | ⟨habe, haba⟩
  · exact Or.inl (lt_trans ham hab)
  · exact Or.inl (habe ▸ ham)
  · exact Or.inl (hme ▸ hab)
  · exact Or.inr ⟨hme.trans habe, le_of_lt (lt_of_le_of_lt hma haba)⟩

theorem bubblePass_min :
    ∀ (l : List ImageCandidate) (a : ImageCandidate),
      ∃ l' m, bubblePass (a :: l) = l' ++ [m] ∧
        (∀ x ∈ a :: l, candLt x m = false) ∧
        List.Perm (a :: l) (l' ++ [m]) := by
  intro l
  induction l with
  | nil =>
    intro a
    refine ⟨[], a, by simp [bubblePass, passAux], ?_, by simp⟩
    intro x hx
    simp only [List.mem_singleton] at hx
    subst hx
    exact candLt_self x
  | cons b rest ih =>
    intro a
    by_cases hab : candLt a b = true
    · obtain ⟨l', m, heq, hmin, hperm⟩ := ih a
      refine ⟨b :: l', m, ?_, ?_, ?_⟩
      · rw [bubblePass_cons_cons, if_pos hab, heq]
        rfl
      · intro x hx
        rcases List.mem_cons.mp hx with rfl | hx
        · exact hmin x (List.mem_cons_self _ _)
        · rcases List.mem_cons.mp hx with rfl | hx
          · exact candLt_min_step hab (hmin a (List.mem_cons_self _ _))
          · exact hmin x (List.mem_cons_of_mem _ hx)
      · exact (List.Perm.swap b a rest).trans (hperm.cons b)
    · have hab' : candLt a b = false := by
        cases h : candLt a b
        · rfl
        · exact absurd h hab
      obtain ⟨l', m, heq, hmin, hperm⟩ := ih b
      refine ⟨a :: l', m, ?_, ?_, ?_⟩
      · rw [bubblePass_cons_cons, if_neg (by simp [hab']), heq]
        rfl
      · intro x hx
        rcases List.mem_cons.mp hx with rfl | hx
        · exact candLt_false_trans hab' (hmin b (List.mem_cons_self _ _))
        · exact hmin x hx
      · exact hperm.cons a

end Scraper

namespace Scraper

theorem bubblePass_perm : ∀ l : List ImageCandidate, List.Perm (bubblePass l) l := by
  intro l
  cases l with
  | nil => simp [bubblePass]
  | cons a t =>
    obtain ⟨l', m, heq, _, hperm⟩ := bubblePass_min t a
    rw [heq]
    exact hperm.symm

theorem iterate_bubblePass_perm (n : Nat) :
    ∀ l : List ImageCandidate, List.Perm (bubblePass^[n] l) l := by
  induction n with
  | zero => intro l; simp
  | succ k ih =>
    intro l
    rw [Function.iterate_succ_apply]
    exact (ih (bubblePass l)).trans (bubblePass_perm l)

theorem bubblePass_keep_tail (m : ImageCandidate) :
    ∀ (n : Nat) (l : List ImageCandidate), l.length ≤ n →
      (∀ x ∈ l, candLt x m = false) →
      bubblePass (l ++ [m]) = bubblePass l ++ [m] := by
  intro n
  induction n with
  | zero =>
    intro l hl _
    have : l = [] := List.length_eq_zero.mp (Nat.le_zero.mp hl)
    subst this
    simp [bubblePass, passAux]
  | succ k ih =>
    intro l hl hmin
    match l with
    | [] => simp [bubblePass, passAux]
    | [a] =>
      have ham : candLt a m = false := hmin a (List.mem_singleton.mpr rfl)
      simp [bubblePass, passAux, ham]
    | a :: b :: rest =>
      by_cases hab : candLt a b = true
      · have h1 : bubblePass ((a :: rest) ++ [m]) = bubblePass (a :: rest) ++ [m] := by
          apply ih
          · simp at hl ⊢; omega
          · intro x hx
            rcases List.mem_cons.mp hx with rfl | hx
            · exact hmin x (List.mem_cons_self _ _)
            · exact hmin x (List.mem_cons_of_mem _ (List.mem_cons_of_mem _ hx))
        have hL : bubblePass ((a :: b :: rest) ++ [m]) =
            b :: bubblePass ((a :: rest) ++ [m]) := by
          simp only [List.cons_append, bubblePass_cons_cons, hab, if_true]
        have hR : bubblePass (a :: b :: rest) = b :: bubblePass (a :: rest) := by
          rw [bubblePass_cons_cons, if_pos hab]
        rw [hL, h1, hR]
        rfl
      · have hab' : candLt a b = false := by
          cases h : candLt a b
          · rfl
          · exact absurd h hab
        have h1 : bubblePass ((b :: rest) ++ [m]) = bubblePass (b :: rest) ++ [m] := by
          apply ih
          · simp at hl ⊢; omega
          · intro x hx
            exact hmin x (List.mem_cons_of_mem _ hx)
        have hL : bubblePass ((a :: b :: rest) ++ [m]) =
            a :: bubblePass ((b :: rest) ++ [m]) := by
          simp only [List.cons_append, bubblePass_cons_cons]
          rw [if_neg (by simp [hab'])]
        have hR : bubblePass (a :: b :: rest) = a :: bubblePass (b :: rest) := by
          rw [bubblePass_cons_cons, if_neg (by simp [hab'])]
        rw [hL, h1, hR]
        rfl

theorem iterate_bubblePass_tail (m : ImageCandidate) :
    ∀ (n : Nat) (l : List ImageCandidate),
      (∀ x ∈ l, candLt x m = false) →
      bubblePass^[n] (l ++ [m]) = bubblePass^[n] l ++ [m] := by
  intro n
  induction n with
  | zero => intro l _; simp
  | succ k ih =>
    intro l hmin
    rw [Function.iterate_succ_apply, Function.iterate_succ_apply]
    rw [bubblePass_keep_tail m l.length l (le_refl _) hmin]
    apply ih
    intro x hx
    exact hmin x ((bubblePass_perm l).mem_iff.mp hx)

theorem iterate_bubblePass_sorted :
    ∀ (n : Nat) (l : List ImageCandidate), l.length ≤ n + 1 →
      (bubblePass^[n] l).Pairwise (fun a b => candLt a b = false) := by
  intro n
  induction n with
  | zero =>
    intro l hl
    match l with
    | [] => simp
    | [a] => simp
    | a :: b :: rest => simp at hl
  | succ k ih =>
    intro l hl
    match l with
    | [] =>
      rw [Function.iterate_fixed (by simp [bubblePass])]
      simp
    | a :: t =>
      obtain ⟨l', m, heq, hmin, hperm⟩ := bubblePass_min t a
      have hlen : l'.length = t.length := by
        have := hperm.length_eq
        simp at this
        omega
      rw [Function.iterate_succ_apply, heq]
      have hminl' : ∀ x ∈ l', candLt x m = false := by
        intro x hx
        exact hmin x (hperm.symm.subset (List.mem_append.mpr (Or.inl hx)))
      rw [iterate_bubblePass_tail m k l' hminl']
      rw [List.pairwise_append]
      refine ⟨?_, List.pairwise_singleton _ _, ?_⟩
      · apply ih
        simp at hl
        omega
      · intro x hx y hy
        simp only [List.mem_singleton] at hy
        subst hy
        exact hminl' x ((iterate_bubblePass_perm k l').subset hx)

theorem sortCandidates_perm (l : List ImageCandidate) :
    List.Perm (sortCandidates l) l :=
  iterate_bubblePass_perm _ l

theorem sortCandidates_sorted (l : List ImageCandidate) :
    (sortCandidates l).Pairwise (fun a b => candLt a b = false) := by
  apply iterate_bubblePass_sorted
  cases l with
  | nil => simp
  | cons a t => simp

end Scraper

namespace Scraper

/-- Configuration with empty whitelist and ad table, for the concrete C10
computation. -/
def cfg0 : ImageConfig := ⟨[], 0, []⟩

/-- The og extraction batch of the C10 counterexample: one dimensionless og
image. -/
def ogB : List ImageCandidate :=
  [⟨⟨"https://x/og.jpg", "", ""⟩, "", 0, 0, true, false, "og", 0, 0⟩]

/-- The JSON-LD extraction batch of the C10 counterexample: one
dimensionless structured-data image. -/
def jlB : List ImageCandidate :=
  [⟨⟨"https://x/ld.jpg", "", ""⟩, "", 0, 0, true, false, "jsonld", 0, 0⟩]

/-- Counterexample to C10 as stated: on the same document-level input (same
og, JSON-LD and article-img batches), two runs whose extraction goroutines
deliver their batches to the fan-in channel in different orders produce
differently ordered image lists — the og and JSON-LD candidates tie at
score 3.5 and area 0, the bubble sort is stable, and the dedup keeps
collection order. -/
theorem extractImages_arrival_order_cex :
    extractImagesPipeline cfg0 ogB jlB [] [0, 1, 2] ≠
      extractImagesPipeline cfg0 ogB jlB [] [1, 0, 2] := by
  decide

/-- C10 (amended).  The image pipeline is deterministic given the candidate
collection order: runs in which the three extraction batches are collected
in the same order yield identical image lists, and the candidate ordering
itself is fully determined — the sort is a permutation of the collected
candidates that is descending in (score, area); only entries tying on both
score and area can differ across runs, following the batch arrival order. -/
theorem extractImages_deterministic_given_order :
    (∀ (cfg : ImageConfig) (og jl im : List ImageCandidate) (o1 o2 : List Nat),
      collectCandidates og jl im o1 = collectCandidates og jl im o2 →
      extractImagesPipeline cfg og jl im o1 = extractImagesPipeline cfg og jl im o2) ∧
    (∀ l : List ImageCandidate,
      List.Perm (sortCandidates l) l ∧
      (sortCandidates l).Pairwise (fun a b => candLt a b = false)) := by
  constructor
  · intro cfg og jl im o1 o2 h
    unfold extractImagesPipeline
    rw [h]
  · intro l
    exact ⟨sortCandidates_perm l, sortCandidates_sorted l⟩

/-- Witness for C10's amended theorem at concrete batches and a concrete
collection order. -/
theorem extractImages_deterministic_given_order_witness :
    extractImagesPipeline cfg0 ogB jlB [] [0, 1, 2] =
      extractImagesPipeline cfg0 ogB jlB [] [0, 1, 2] ∧
    (List.Perm (sortCandidates (ogB ++ jlB)) (ogB ++ jlB) ∧
      (sortCandidates (ogB ++ jlB)).Pairwise (fun a b => candLt a b = false)) :=
  ⟨extractImages_deterministic_given_order.1 cfg0 ogB jlB [] [0, 1, 2] [0, 1, 2] rfl,
   extractImages_deterministic_given_order.2 (ogB ++ jlB)⟩

end Scraper

namespace Scraper

/-! ### C7: selection among extraction results (`selectBestResult`)

The extractor source carries each strategy's result (`models.ScrapeResponse`)
into `selectBestResult`; the selection reads only the title, the content and
the quality score, so results are summarized by those three fields. -/

/-- The fields of an extraction result consumed by `selectBestResult`. -/
structure SResult where
  title : String
  content : String
  qualityScore : Int
deriving DecidableEq, Repr

/-- The composite score before the readability bonus (selectBestResult
lines 469–482): quality score, +20 when both title and content are
non-empty, plus 1 point per 100 characters of content capped at 50. -/
def baseScore (r : SResult) : Int :=
  r.qualityScore + (if 0 < r.title.length ∧ 0 < r.content.length then 20 else 0) +
    min ((r.content.length : Int) / 100) 50

/-- Strategy label of index `i` (`"unknown"` when the strategies list is
shorter, as in the source). -/
def stratAt (strategies : List String) (i : Nat) : String :=
  strategies.getD i "unknown"

/-- Final per-candidate score (lines 484–487): the +5 readability bonus
applies when the strategy is `readability`, the composite is within 10
points of the best score seen so far in scan order, and the content is
non-empty. -/
def finalScore (strategies : List String) (i : Nat) (r : SResult) (bestScore : Int) : Int :=
  let s := baseScore r
  if stratAt strategies i = "readability" ∧ bestScore - 10 ≤ s ∧ 0 < r.content.length
  then s + 5 else s

/-- The selection loop (lines 463–496): replace the best on a strictly
higher score, or on an equal score with strictly longer content. -/
def selectAux (strategies : List String) :
    List SResult → Nat → (SResult × String) → Int → SResult × String
  | [], _, best, _ => best
  | r :: rest, i, best, bestScore =>
    let score := finalScore strategies i r bestScore
    if bestScore < score ∨ (score = bestScore ∧ best.1.content.length < r.content.length)
    then selectAux strategies rest (i + 1) (r, stratAt strategies i) score
    else selectAux strategies rest (i + 1) best bestScore

/-- The zero value of the result type (Go's `var best ...`). -/
def emptySResult : SResult := ⟨"", "", 0⟩

/-- Model of `selectBestResult` (lines 452–499). -/
def selectBestResult (results : List SResult) (strategies : List String) :
    SResult × String :=
  if results.isEmpty then (emptySResult, "none")
  else selectAux strategies results 0 (emptySResult, "") (-1)

/-- The final score of each candidate in scan order, threading the running
maximum that the readability bonus is compared against. -/
def finalScores (strategies : List String) :
    List SResult → Nat → Int → List Int
  | [], _, _ => []
  | r :: rest, i, bestScore =>
    let score := finalScore strategies i r bestScore
    score :: finalScores strategies rest (i + 1) (max bestScore score)

/-- Modelled from the claim's words: "the leader" — the highest composite
score of the list. -/
def specLeader (results : List SResult) : Int :=
  (results.map baseScore).foldl max (-1)

/-- Modelled from the claim's words: composite score with a bonus for the
readability strategy whenever its score is within 10 points of the leader
(no condition on the content). -/
def specComposite (results : List SResult) (strategies : List String)
    (i : Nat) (r : SResult) : Int :=
  let s := baseScore r
  if stratAt strategies i = "readability" ∧ specLeader results - 10 ≤ s then s + 5 else s

/-- Modelled from the claim's words: highest composite wins, remaining ties
favor longer content. -/
def specSelectAux (results : List SResult) (strategies : List String) :
    List SResult → Nat → (SResult × String) → Int → SResult × String
  | [], _, best, _ => best
  | r :: rest, i, best, bestScore =>
    let score := specComposite results strategies i r
    if bestScore < score ∨ (score = bestScore ∧ best.1.content.length < r.content.length)
    then specSelectAux results strategies rest (i + 1) (r, stratAt strategies i) score
    else specSelectAux results strategies rest (i + 1) best bestScore

/-- Modelled from the claim's words: the selection the claim describes. -/
def specSelectBest (results : List SResult) (strategies : List String) :
    SResult × String :=
  if results.isEmpty then (emptySResult, "none")
  else specSelectAux results strategies results 0 (emptySResult, "") (-1)

/-- Counterexample to C7 as stated: a readability result with non-empty
title, empty content and quality 5 against a later result with empty title,
3-character content and quality 6.  Under the claim's rule the readability
result is within 10 points of the leader (5 ≥ 6−10), takes the +5 bonus and
wins 10 against 6; the code denies the bonus to empty-content readability
results and selects the other result. -/
theorem selectBestResult_claim_cex :
    selectBestResult [⟨"t", "", 5⟩, ⟨"", "aaa", 6⟩] ["readability", "simple"] =
      (⟨"", "aaa", 6⟩, "simple") ∧
    specSelectBest [⟨"t", "", 5⟩, ⟨"", "aaa", 6⟩] ["readability", "simple"] =
      (⟨"t", "", 5⟩, "readability") ∧
    selectBestResult [⟨"t", "", 5⟩, ⟨"", "aaa", 6⟩] ["readability", "simple"] ≠
      specSelectBest [⟨"t", "", 5⟩, ⟨"", "aaa", 6⟩] ["readability", "simple"] := by
  refine ⟨by decide, by decide, by decide⟩

theorem baseScore_nonneg (r : SResult) (hq : 0 ≤ r.qualityScore) :
    0 ≤ baseScore r := by
  unfold baseScore
  have h1 : (0 : Int) ≤ if 0 < r.title.length ∧ 0 < r.content.length then 20 else 0 := by
    split <;> norm_num
  have h2 : (0 : Int) ≤ min ((r.content.length : Int) / 100) 50 := by
    apply le_min
    · positivity
    · norm_num
  linarith

theorem finalScore_ge_base (strategies : List String) (i : Nat) (r : SResult) (bs : Int) :
    baseScore r ≤ finalScore strategies i r bs := by
  simp only [finalScore]
  split
  · omega
  · exact le_refl _

end Scraper

namespace Scraper

theorem selectAux_spec (strategies : List String) :
    ∀ (rest : List SResult) (i0 : Nat) (best : SResult × String) (bs : Int),
      (selectAux strategies rest i0 best bs = best ∧
        ∀ k (hk : k < rest.length),
          (finalScores strategies rest i0 bs).getD k 0 < bs ∨
          ((finalScores strategies rest i0 bs).getD k 0 = bs ∧
            (rest.get ⟨k, hk⟩).content.length ≤ best.1.content.length)) ∨
      (∃ k, ∃ hk : k < rest.length,
        selectAux strategies rest i0 best bs =
          (rest.get ⟨k, hk⟩, stratAt strategies (i0 + k)) ∧
        (bs < (finalScores strategies rest i0 bs).getD k 0 ∨
          ((finalScores strategies rest i0 bs).getD k 0 = bs ∧
            best.1.content.length < (rest.get ⟨k, hk⟩).content.length)) ∧
        ∀ j (hj : j < rest.length), j ≠ k →
          (finalScores strategies rest i0 bs).getD j 0 <
            (finalScores strategies rest i0 bs).getD k 0 ∨
          ((finalScores strategies rest i0 bs).getD j 0 =
            (finalScores strategies rest i0 bs).getD k 0 ∧
            ((rest.get ⟨j, hj⟩).content.length < (rest.get ⟨k, hk⟩).content.length ∨
             ((rest.get ⟨j, hj⟩).content.length = (rest.get ⟨k, hk⟩).content.length ∧
              k < j)))) := by
  intro rest
  induction rest with
  | nil =>
    intro i0 best bs
    left
    exact ⟨rfl, fun k hk => absurd hk (by simp)⟩
  | cons r rest ih =>
    intro i0 best bs
    have hfs : finalScores strategies (r :: rest) i0 bs =
        finalScore strategies i0 r bs ::
          finalScores strategies rest (i0 + 1)
            (max bs (finalScore strategies i0 r bs)) := by
      simp only [finalScores]
    by_cases hrep : bs < finalScore strategies i0 r bs ∨
        (finalScore strategies i0 r bs = bs ∧
          best.1.content.length < r.content.length)
    · have hsel : selectAux strategies (r :: rest) i0 best bs =
          selectAux strategies rest (i0 + 1) (r, stratAt strategies i0)
            (finalScore strategies i0 r bs) := by
        simp only [selectAux]
        rw [if_pos hrep]
      have hmax : max bs (finalScore strategies i0 r bs) =
          finalScore strategies i0 r bs := by
        rcases hrep with h | ⟨h, _⟩
        · exact max_eq_right h.le
        · simp [h]
      rcases ih (i0 + 1) (r, stratAt strategies i0) (finalScore strategies i0 r bs) with
        ⟨hres, hdom⟩ | ⟨k', hk', hres, hbeat, hdom⟩
      · right
        refine ⟨0, by simp, ?_, ?_, ?_⟩
        · rw [hsel, hres]
          simp
        · rw [hfs]
          simp only [List.getD_cons_zero, List.get_cons_zero]
          exact hrep
        · intro j hj hjne
          cases j with
          | zero => exact absurd rfl hjne
          | succ j =>
            rw [hfs]
            simp only [List.getD_cons_succ, List.getD_cons_zero,
              List.get_cons_succ, List.get_cons_zero]
            rw [hmax]
            have hj' : j < rest.length := by simpa using hj
            rcases hdom j hj' with h | ⟨h1, h2⟩
            · left; exact h
            · right
              refine ⟨h1, ?_⟩
              rcases lt_or_eq_of_le h2 with h3 | h3
              · exact Or.inl h3
              · exact Or.inr ⟨h3, Nat.succ_pos j⟩
      · right
        have hidx : i0 + (k' + 1) = i0 + 1 + k' := by omega
        refine ⟨k' + 1, by simpa using Nat.succ_lt_succ hk', ?_, ?_, ?_⟩
        · rw [hsel, hres, hidx]
          simp
        · rw [hfs]
          simp only [List.getD_cons_succ, List.get_cons_succ]
          rw [hmax]
          rcases hbeat with hb | ⟨hb1, hb2⟩
          · rcases hrep with h | ⟨h, _⟩
            · left; exact lt_trans h hb
            · left; exact lt_of_le_of_lt (le_of_eq h.symm) hb
          · rcases hrep with h | ⟨h1, h2⟩
            · left; rw [hb1]; exact h
            · right; exact ⟨by rw [hb1, h1], lt_trans h2 hb2⟩
        · intro j hj hjne
          cases j with
          | zero =>
            rw [hfs]
            simp only [List.getD_cons_zero, List.getD_cons_succ,
              List.get_cons_zero, List.get_cons_succ]
            rw [hmax]
            rcases hbeat with hb | ⟨hb1, hb2⟩
            · left; exact hb
            · right; exact ⟨hb1.symm, Or.inl hb2⟩
          | succ j =>
            rw [hfs]
            simp only [List.getD_cons_succ, List.get_cons_succ]
            rw [hmax]
            have hj' : j < rest.length := by simpa using hj
            have hjne' : j ≠ k' := fun h => hjne (by rw [h])
            rcases hdom j hj' hjne' with h | ⟨h1, h2⟩
            · left; exact h
            · right
              refine ⟨h1, ?_⟩
              rcases h2 with h2 | ⟨h2a, h2b⟩
              · exact Or.inl h2
              · exact Or.inr ⟨h2a, Nat.succ_lt_succ h2b⟩
    · have hsel : selectAux strategies (r :: rest) i0 best bs =
          selectAux strategies rest (i0 + 1) best bs := by
        simp only [selectAux]
        rw [if_neg hrep]
      push_neg at hrep
      obtain ⟨hns, hnl⟩ := hrep
      have hmax : max bs (finalScore strategies i0 r bs) = bs := max_eq_left hns
      rcases ih (i0 + 1) best bs with ⟨hres, hdom⟩ | ⟨k', hk', hres, hbeat, hdom⟩
      · left
        refine ⟨by rw [hsel, hres], ?_⟩
        intro k hk
        cases k with
        | zero =>
          rw [hfs]
          simp only [List.getD_cons_zero, List.get_cons_zero]
          rcases lt_or_eq_of_le hns with h | h
          · left; exact h
          · right; exact ⟨h, hnl h⟩
        | succ k =>
          rw [hfs]
          simp only [List.getD_cons_succ, List.get_cons_succ]
          rw [hmax]
          exact hdom k (by simpa using hk)
      · right
        have hidx : i0 + (k' + 1) = i0 + 1 + k' := by omega
        refine ⟨k' + 1, by simpa using Nat.succ_lt_succ hk', ?_, ?_, ?_⟩
        · rw [hsel, hres, hidx]
          simp
        · rw [hfs]
          simp only [List.getD_cons_succ, List.get_cons_succ]
          rw [hmax]
          exact hbeat
        · intro j hj hjne
          cases j with
          | zero =>
            rw [hfs]
            simp only [List.getD_cons_zero, List.getD_cons_succ,
              List.get_cons_zero, List.get_cons_succ]
            rw [hmax]
            rcases hbeat with hb | ⟨hb1, hb2⟩
            · left; exact lt_of_le_of_lt hns hb
            · rcases lt_or_eq_of_le hns with h | h
              · left; rw [hb1]; exact h
              · right
                exact ⟨by rw [hb1, h], Or.inl (lt_of_le_of_lt (hnl h) hb2)⟩
          | succ j =>
            rw [hfs]
            simp only [List.getD_cons_succ, List.get_cons_succ]
            rw [hmax]
            have hj' : j < rest.length := by simpa using hj
            have hjne' : j ≠ k' := fun h => hjne (by rw [h])
            rcases hdom j hj' hjne' with h | ⟨h1, h2⟩
            · left; exact h
            · right
              refine ⟨h1, ?_⟩
              rcases h2 with h2 | ⟨h2a, h2b⟩
              · exact Or.inl h2
              · exact Or.inr ⟨h2a, Nat.succ_lt_succ h2b⟩

end Scraper

namespace Scraper

/-- C7 (amended).  For non-empty result lists with non-negative quality
scores, `selectBestResult` returns the candidate maximizing the final
composite score — quality score, +20 for non-empty title and content, the
capped content bonus, and the +5 readability bonus granted when the content
is non-empty and the composite is within 10 points of the best score seen
so far in scan order — with ties broken in favor of longer content, and
remaining ties in favor of the earlier candidate. -/
theorem selectBestResult_argmax (results : List SResult) (strategies : List String)
    (hne : results ≠ []) (hq : ∀ r ∈ results, 0 ≤ r.qualityScore) :
    ∃ i, ∃ hi : i < results.length,
      selectBestResult results strategies = (results.get ⟨i, hi⟩, stratAt strategies i) ∧
      ∀ j (hj : j < results.length), j ≠ i →
        (finalScores strategies results 0 (-1)).getD j 0 <
          (finalScores strategies results 0 (-1)).getD i 0 ∨
        ((finalScores strategies results 0 (-1)).getD j 0 =
          (finalScores strategies results 0 (-1)).getD i 0 ∧
          ((results.get ⟨j, hj⟩).content.length < (results.get ⟨i, hi⟩).content.length ∨
           ((results.get ⟨j, hj⟩).content.length = (results.get ⟨i, hi⟩).content.length ∧
            i < j))) := by
  have hsel : selectBestResult results strategies =
      selectAux strategies results 0 (emptySResult, "") (-1) := by
    unfold selectBestResult
    rw [if_neg (by simpa [List.isEmpty_iff] using hne)]
  rcases selectAux_spec strategies results 0 (emptySResult, "") (-1) with
    ⟨_, hdom⟩ | ⟨k, hk, hres, _, hdom⟩
  · exfalso
    match results, hne, hq, hdom with
    | r :: rest, _, hq, hdom =>
      have h0 := hdom 0 (by simp)
      have hbase : 0 ≤ baseScore r := baseScore_nonneg r (hq r (by simp))
      have hfin : baseScore r ≤ finalScore strategies 0 r (-1) :=
        finalScore_ge_base strategies 0 r (-1)
      have hget : (finalScores strategies (r :: rest) 0 (-1)).getD 0 0 =
          finalScore strategies 0 r (-1) := by
        simp [finalScores]
      rcases h0 with h | ⟨h, _⟩
      · rw [hget] at h; omega
      · rw [hget] at h; omega
  · refine ⟨k, hk, ?_, ?_⟩
    · rw [hsel, hres]
      simp
    · intro j hj hjne
      exact hdom j hj hjne

/-- Witness for C7's amended theorem: a single readability result. -/
theorem selectBestResult_argmax_witness :
    ∃ i, ∃ hi : i < ([⟨"t", "abc", 10⟩] : List SResult).length,
      selectBestResult [⟨"t", "abc", 10⟩] ["readability"] =
        (([⟨"t", "abc", 10⟩] : List SResult).get ⟨i, hi⟩, stratAt ["readability"] i) ∧
      ∀ j (hj : j < ([⟨"t", "abc", 10⟩] : List SResult).length), j ≠ i →
        (finalScores ["readability"] [⟨"t", "abc", 10⟩] 0 (-1)).getD j 0 <
          (finalScores ["readability"] [⟨"t", "abc", 10⟩] 0 (-1)).getD i 0 ∨
        ((finalScores ["readability"] [⟨"t", "abc", 10⟩] 0 (-1)).getD j 0 =
          (finalScores ["readability"] [⟨"t", "abc", 10⟩] 0 (-1)).getD i 0 ∧
          ((([⟨"t", "abc", 10⟩] : List SResult).get ⟨j, hj⟩).content.length <
              (([⟨"t", "abc", 10⟩] : List SResult).get ⟨i, hi⟩).content.length ∨
           ((([⟨"t", "abc", 10⟩] : List SResult).get ⟨j, hj⟩).content.length =
              (([⟨"t", "abc", 10⟩] : List SResult).get ⟨i, hi⟩).content.length ∧
            i < j))) :=
  selectBestResult_argmax [⟨"t", "abc", 10⟩] ["readability"] (by simp) (by decide)

end Scraper
